import Mathlib

/-!
A shallow embedding of the FRED data-cleaning pipeline implemented in
`src/data/data_cleaning.py`, together with theorems settling the stated
properties of its loader, aligner, resampler and curator stages.

Modelling conventions:
* Timestamps are encoded as natural numbers `monthIndex * 32 + dayOfMonth`
  with `monthIndex = year * 12 + (month - 1)`.  The encoding is strictly
  monotone in (year, month, day), calendar months are the contiguous blocks
  of 32 consecutive codes, so `d / 32` recovers the month of a timestamp.
* Numeric cell values are rationals; a missing value (`NaN`) is `none`.
* A parsed cell is represented by the result of the best-effort parse
  (`pd.to_datetime(..., errors="coerce")` / `pd.to_numeric(..., errors="coerce")`):
  `none` when the parse failed, `some v` otherwise.
* `DataFrame`s keyed by date are lists of rows `(date, values)` with a
  separate column-name list; pandas operations are translated row by row.
* The unstable `sort_values` kind is modelled by a stable insertion sort
  (equal keys keep their relative order).
-/

namespace DataClean

/-- Encoded timestamp: `monthIndex * 32 + dayOfMonth`. -/
abbrev Date := Nat

/-- A numeric-or-missing cell value (`NaN` is `none`). -/
abbrev Val := Option ℚ

/-- One panel row: a date and the list of column values. -/
abbrev Row := Date × List Val

/-- Loader output: rows `(date, value)` with the date present, in file order. -/
abbrev Series := List (Date × Val)

/-- Build the encoded timestamp of a calendar date. -/
def mkDate (y m day : Nat) : Date := (y * 12 + (m - 1)) * 32 + day

/-- The month index a timestamp falls in. -/
def monthOf (d : Date) : Nat := d / 32

/-- One raw CSV file: its series identifier (base filename), its number of
columns, and for each data row the parse results of the first two cells. -/
structure SourceFile where
  sid : String
  cols : Nat
  rows : List (Option Date × Val)
deriving DecidableEq, Repr

/-- The per-file error raised by `load_and_clean_fred_series` when a file has
fewer than two columns (`ValueError`, the spec's `MalformedSourceError`),
carrying the identifier and the offending column count. -/
inductive LoadErr where
  | malformed : String → Nat → LoadErr
deriving DecidableEq, Repr

/-- `load_and_clean_fred_series` (src/data/data_cleaning.py:13-47): reject a
file with fewer than 2 columns, keep the first two columns, parse dates and
values best-effort, then drop exactly the rows whose date failed to parse. -/
def loadSeries (f : SourceFile) : Except LoadErr Series :=
  if f.cols < 2 then .error (.malformed f.sid f.cols)
  else .ok (f.rows.filterMap (fun r =>
    match r.1 with
    | some d => some (d, r.2)
    | none => none))

/-- The load loop (src/data/data_cleaning.py:51-60): each file is loaded under
a `try`; successes are collected in order, failures are reported (identifier
and error) and the loop continues. -/
def loadBatch : List SourceFile → List (String × Series) × List (String × LoadErr)
  | [] => ([], [])
  | f :: fs =>
    match loadSeries f with
    | .ok s => ((f.sid, s) :: (loadBatch fs).1, (loadBatch fs).2)
    | .error e => ((loadBatch fs).1, (f.sid, e) :: (loadBatch fs).2)

/-- A wide panel: column names and rows keyed by date. -/
structure Panel where
  cols : List String
  rows : List Row
deriving DecidableEq, Repr

/-- The date axis of a panel. -/
def Panel.dates (p : Panel) : List Date := p.rows.map Prod.fst

/-- The value at date `d` in the `j`-th column (first row carrying `d`). -/
def Panel.cell (p : Panel) (d : Date) (j : Nat) : Val :=
  match p.rows.find? (fun r => r.1 == d) with
  | some r => r.2.getD j none
  | none => none

/-- The value at date `d` in the column named `c`. -/
def Panel.get (p : Panel) (d : Date) (c : String) : Val :=
  p.cell d (p.cols.indexOf c)

/-- A row of `n` missing values. -/
def padRow (n : Nat) : List Val := List.replicate n none

/-- The result rows one left row contributes to an outer merge: one combined
row per right-hand row of equal date, a single missing-padded row when the
right-hand series has none. -/
def mergeRow (s : Series) (r : Row) : List Row :=
  match s.filter (fun x => x.1 == r.1) with
  | [] => [(r.1, r.2 ++ [none])]
  | m :: ms => (m :: ms).map (fun x => (r.1, r.2 ++ [x.2]))

/-- One step of the merge loop (src/data/data_cleaning.py:64-68):
`master_df.merge(df, on="date", how="outer")` — every left row is paired with
every right row of equal date (missing-padded when there is none), and the
right rows whose date never occurs on the left are appended. -/
def mergeStep (p : Panel) (sid : String) (s : Series) : Panel :=
  ⟨p.cols ++ [sid],
    p.rows.flatMap (mergeRow s)
    ++ ((s.filter (fun x => p.rows.all (fun r => !(r.1 == x.1)))).map
        (fun x => (x.1, padRow p.cols.length ++ [x.2])))⟩

/-- The single-series data frame that seeds the merge loop. -/
def seriesPanel (q : String × Series) : Panel :=
  ⟨[q.1], q.2.map (fun x => (x.1, [x.2]))⟩

/-- The merge loop: `master_df` starts as `None`, becomes the first series'
frame, and every further series is outer-merged into it. -/
def mergeAll : List (String × Series) → Option Panel
  | [] => none
  | q :: rest => some (rest.foldl (fun p q' => mergeStep p q'.1 q'.2) (seriesPanel q))

/-- Row comparison by date, the key of `sort_values("date")`. -/
def rowLe (a b : Row) : Prop := a.1 ≤ b.1

instance : DecidableRel rowLe := fun a b => Nat.decLe a.1 b.1

instance : IsTotal Row rowLe := ⟨fun a b => Nat.le_total a.1 b.1⟩

instance : IsTrans Row rowLe := ⟨fun _ _ _ h h' => Nat.le_trans h h'⟩

/-- One outcome of `sort_values("date")`: a stable sort on the date key.
The program's default sort kind is an unstable quicksort, so the order of
rows with equal dates is implementation-defined there; `sortedByDate` below
ranges over every possible outcome, of which this is one. -/
def sortRows (rs : List Row) : List Row := rs.insertionSort rowLe

/-- The possible outcomes of `sort_values("date")` with its default
unstable quicksort: any permutation of the rows that is ordered by date
(the relative order of rows with equal dates is implementation-defined). -/
def sortedByDate (l l' : List Row) : Prop := l.Perm l' ∧ l'.Pairwise rowLe

instance : IsAntisymm Row (fun a b => a.1 < b.1) :=
  ⟨fun _ _ h h' => absurd (Nat.lt_trans h h') (Nat.lt_irrefl _)⟩

/-- Scan of `drop_duplicates("date")`: skip every row whose date was already
seen, keep the first row of each date. -/
def dedupFirstAux (seen : List Date) : List Row → List Row
  | [] => []
  | r :: rs =>
    if seen.contains r.1 then dedupFirstAux seen rs
    else r :: dedupFirstAux (r.1 :: seen) rs

/-- `drop_duplicates("date")` with the default `keep="first"`: for every date
only the first row carrying it survives. -/
def dedupFirstRows (rs : List Row) : List Row := dedupFirstAux [] rs

/-- Line 70: sort ascending by date, then de-duplicate keeping first. -/
def sortDedup (p : Panel) : Panel := ⟨p.cols, dedupFirstRows (sortRows p.rows)⟩

/-- The whole aligner on a list of loaded series (`None` when there are none). -/
def align (L : List (String × Series)) : Option Panel := (mergeAll L).map sortDedup

/-- The aligner as the script executes it: when no series was loaded,
`master_df` is still `None` at line 70 and `None.sort_values` raises an
`AttributeError` instead of producing a panel. -/
def alignStage (L : List (String × Series)) : Except String Panel :=
  match mergeAll L with
  | none => .error "AttributeError"
  | some p => .ok (sortDedup p)

/-- All possible results of the alignment stage (lines 62-70) when the
order of equal-date rows after `sort_values` is left to the unstable sort:
some sorted permutation of the merged rows, de-duplicated keeping the
first row of each date. -/
def alignRel (L : List (String × Series)) (P : Panel) : Prop :=
  ∃ m sorted, mergeAll L = some m ∧ sortedByDate m.rows sorted ∧
    P = ⟨m.cols, dedupFirstRows sorted⟩

/-- Gregorian leap-year rule. -/
def isLeap (y : Nat) : Bool := y % 4 == 0 && (y % 100 != 0 || y % 400 == 0)

/-- Number of days of the calendar month with month index `mi`. -/
def daysInMonth (mi : Nat) : Nat :=
  let m := mi % 12 + 1
  if m = 2 then (if isLeap (mi / 12) then 29 else 28)
  else if m = 4 ∨ m = 6 ∨ m = 9 ∨ m = 11 then 30
  else 31

/-- The month-end timestamp of the month with index `mi`. -/
def monthEnd (mi : Nat) : Date := mi * 32 + daysInMonth mi

/-- `GroupBy.last` for one month bin and one column: the value of the last row
of the bin whose cell is non-missing, `NaN` when every cell is missing. -/
def lastObsInMonth (rows : List Row) (mi j : Nat) : Val :=
  match (rows.filter (fun r => monthOf r.1 == mi)).reverse.find?
      (fun r => (r.2.getD j none).isSome) with
  | some r => r.2.getD j none
  | none => none

/-- The contiguous month indices from `lo` to `hi`. -/
def monthRange (lo hi : Nat) : List Nat := (List.range (hi + 1 - lo)).map (fun k => lo + k)

/-- The rows of the resampled frame for a non-empty date index `r :: rs`:
one month-end row per month between the minimum and maximum of the index,
each of the `n` cells the last non-missing in-month observation. -/
def resampleRows (r : Row) (rs : List Row) (n : Nat) : List Row :=
  (monthRange (monthOf (rs.foldl (fun a b => min a b.1) r.1))
      (monthOf (rs.foldl (fun a b => max a b.1) r.1))).map (fun mi =>
    (monthEnd mi, (List.range n).map (fun j => lastObsInMonth (r :: rs) mi j)))

/-- `resample("M").last()` (src/data/data_cleaning.py:74): one month-end row
for every month between the minimum and maximum of the date index, each cell
the last non-missing in-month observation of its column. -/
def resample (p : Panel) : Panel :=
  match p.rows with
  | [] => ⟨p.cols, []⟩
  | r :: rs => ⟨p.cols, resampleRows r rs p.cols.length⟩

/-- The greatest date of a date-sorted row list, `a` when the list is empty. -/
def lastDate : List Row → Date → Date
  | [], a => a
  | r :: rs, _ => lastDate rs r.1

/-- The hardcoded start-date anchor `"1954-01-31"` of line 81. -/
def cutoffDate : Date := mkDate 1954 1 31

/-- `master_df.loc["1954-01-31":]`: keep the rows dated on or after the anchor. -/
def cutoff (p : Panel) : Panel := ⟨p.cols, p.rows.filter (fun r => cutoffDate ≤ r.1)⟩

/-- `isna().mean()` for column `j`: the fraction of missing cells, the count
of missing cells divided by the number of rows (`mkRat` is exact division). -/
def missFrac (p : Panel) (j : Nat) : ℚ :=
  mkRat (p.rows.countP (fun r => (r.2.getD j none).isNone) : ℤ) p.rows.length

/-- The boolean mask `master_df.isna().mean() < threshold` for column `j`.
On an empty frame `mean()` is `NaN` and `NaN < t` is `False`, whence the
row-count guard. -/
def pruneKeep (t : ℚ) (p : Panel) (j : Nat) : Bool :=
  p.rows.length != 0 && decide (missFrac p j < t)

/-- The positions of the columns surviving the mask, in order. -/
def pruneIdxs (t : ℚ) (p : Panel) : List Nat :=
  (List.range p.cols.length).filter (pruneKeep t p)

/-- Line 83, `master_df.loc[:, master_df.isna().mean() < threshold]`: keep
exactly the columns whose missing fraction is strictly below the threshold. -/
def prune (t : ℚ) (p : Panel) : Panel :=
  ⟨(pruneIdxs t p).map (fun j => p.cols.getD j ""),
   p.rows.map (fun r => (r.1, (pruneIdxs t p).map (fun j => r.2.getD j none)))⟩

/-- The yield-curve column-class rule of line 84: `c.startswith("DGS")`,
stated on the character list so that it evaluates in the kernel. -/
def isYield (c : String) : Bool := c.data.take 3 == ['D', 'G', 'S']

/-- Column-wise forward fill restricted to the columns selected by `mask`,
carrying for every column the last value seen so far. -/
def ffillRows (mask : Nat → Bool) (n : Nat) : List Val → List Row → List Row
  | _, [] => []
  | last, r :: rs =>
    let nr : List Val := (List.range n).map (fun j =>
      match r.2.getD j none with
      | some v => some v
      | none => if mask j then last.getD j none else none)
    (r.1, nr) :: ffillRows mask n nr rs

/-- `df[cols] = df[cols].ffill()` for the column set selected by `mask`. -/
def ffillCols (mask : Nat → Bool) (p : Panel) : Panel :=
  ⟨p.cols, ffillRows mask p.cols.length (List.replicate p.cols.length none) p.rows⟩

/-- The mask of yield-curve columns (line 84). -/
def yieldMask (p : Panel) (j : Nat) : Bool := isYield (p.cols.getD j "")

/-- The mask of the remaining fillable columns (lines 86-87): not yield-curve
and not the reserved recession indicator `"USREC"`. -/
def econMask (p : Panel) (j : Nat) : Bool :=
  !(isYield (p.cols.getD j "")) && (p.cols.getD j "") != "USREC"

/-- Lines 84-88: forward-fill the yield-curve columns, then forward-fill the
other non-`"USREC"` columns as a second pass. -/
def fillStep (p : Panel) : Panel := ffillCols (econMask p) (ffillCols (yieldMask p) p)

/-- Truncation toward zero, the `numpy` `astype(int)` cast of a float
(`Int.tdiv` rounds toward zero: `-0.5 ↦ 0`, `-1.5 ↦ -1`, `1.9 ↦ 1`). -/
def ratTrunc (q : ℚ) : ℤ := Int.tdiv q.num (q.den : ℤ)

/-- Lines 89-90: when the `"USREC"` column is present, replace its missing
values by `0` and cast it to integers. -/
def usrecStep (p : Panel) : Panel :=
  if p.cols.contains "USREC" then
    ⟨p.cols, p.rows.map (fun r => (r.1, (List.range p.cols.length).map (fun j =>
      if p.cols.getD j "" == "USREC" then
        some ((ratTrunc ((r.2.getD j none).getD 0) : ℤ) : ℚ)
      else r.2.getD j none)))⟩
  else p

/-- Line 91, `dropna(how="all")`: drop the rows whose every cell is missing. -/
def dropAllMissing (p : Panel) : Panel :=
  ⟨p.cols, p.rows.filter (fun r =>
    !((List.range p.cols.length).all (fun j => (r.2.getD j none).isNone)))⟩

/-- The sparse-column threshold `0.95` of line 82 (`mkRat 19 20 = 0.95`). -/
def threshold : ℚ := mkRat 19 20

/-- Lines 80-91 in order: cutoff, prune, two fill passes, recession-indicator
normalization, all-missing row removal. -/
def curate (p : Panel) : Panel :=
  dropAllMissing (usrecStep (fillStep (prune threshold (cutoff p))))

/-- A textual cell of the output CSV (missing values are empty fields). -/
def renderVal : Val → String
  | none => ""
  | some q => toString q.num ++ (if q.den == 1 then "" else "/" ++ toString q.den)

/-- A textual date of the output CSV. -/
def renderDate (d : Date) : String :=
  toString (d / 32 / 12) ++ "-" ++ toString (d / 32 % 12 + 1) ++ "-" ++ toString (d % 32)

/-- `to_csv` (line 94): a header line then one comma-separated line per row,
the date leading. -/
def renderPanel (p : Panel) : List String :=
  String.intercalate "," ("date" :: p.cols) ::
  p.rows.map (fun r => String.intercalate ","
    (renderDate r.1 :: (List.range p.cols.length).map (fun j => renderVal (r.2.getD j none))))

/-- The full pipeline (src/data/data_cleaning.py:49-95) on a directory
listing: load every file, align, resample, curate, render the output file. -/
def runPipeline (files : List SourceFile) : Except String (List String) :=
  match alignStage (loadBatch files).1 with
  | .error e => .error e
  | .ok p => .ok (renderPanel (curate (resample p)))

/-- The value a series contributes at date `d`: the value of its first row
dated `d`, missing when it has none. -/
def firstVal (s : Series) (d : Date) : Val :=
  match s.find? (fun x => x.1 == d) with
  | some x => x.2
  | none => none

/-- The first row of a frame carrying date `d`. -/
def firstRowAt (rs : List Row) (d : Date) : Option Row := rs.find? (fun r => r.1 == d)

/-- Whether any of the series carries date `d`. -/
def unionHas (L : List (String × Series)) (d : Date) : Bool :=
  L.any (fun q => q.2.any (fun x => x.1 == d))

/-- The canonical row at date `d`: every series' first value there. -/
def comboRow (L : List (String × Series)) (d : Date) : Row :=
  (d, L.map (fun q => firstVal q.2 d))

/-- Invariant of the merge loop: after merging the series of `L`, the columns
are the identifiers of `L` in order, and, for every date, the first row
carrying it is the canonical row of first values (absent iff no series has
the date). -/
def MergeInv (L : List (String × Series)) (P : Panel) : Prop :=
  P.cols = L.map Prod.fst ∧
  ∀ d, firstRowAt P.rows d = if unionHas L d then some (comboRow L d) else none

/-- Row-provenance invariant of the merge loop: every merged row has one
cell per merged series, and every non-missing cell is the value carried by
some row of the corresponding series at the merged row's date. -/
def MergeProv (L : List (String × Series)) (P : Panel) : Prop :=
  ∀ r ∈ P.rows, r.2.length = L.length ∧
    ∀ i, i < L.length →
      r.2.getD i none = none ∨
      ∃ x, x ∈ (L.getD i ("", [])).2 ∧ x.1 = r.1 ∧ x.2 = r.2.getD i none

/-- Fixture: a series with two rows on the same date. -/
def dupSeries : Series := [(700000, some 1), (700000, some 2)]

/-- Fixture: a one-series collection whose series has duplicate dates. -/
def dupList : List (String × Series) := [("DUP", dupSeries)]

/-- Fixture: the file `dupSeries` is loaded from. -/
def dupFile : SourceFile := ⟨"DUP", 2, [(some 700000, some 1), (some 700000, some 2)]⟩

/-- Fixture: a second series sharing the duplicated date. -/
def dupSeriesB : Series := [(700000, some 10)]

/-- Fixture: the duplicate-date collection, `"DUP"` first. -/
def dupListAB : List (String × Series) := [("DUP", dupSeries), ("B", dupSeriesB)]

/-- Fixture: the duplicate-date collection, `"B"` first. -/
def dupListBA : List (String × Series) := [("B", dupSeriesB), ("DUP", dupSeries)]

/-- Fixture: an alignment outcome of `dupListAB` keeping the first duplicate. -/
def dupPanelAB : Panel := ⟨["DUP", "B"], [(700000, [some 1, some 10])]⟩

/-- Fixture: an alignment outcome of `dupListBA` keeping the other duplicate. -/
def dupPanelBA : Panel := ⟨["B", "DUP"], [(700000, [some 10, some 2])]⟩

/-- Fixture: an alignment outcome of `dupList`. -/
def dupPanel0 : Panel := ⟨["DUP"], [(700000, [some 1])]⟩

/-- Fixture: a malformed one-column file. -/
def badFile : SourceFile := ⟨"BAD", 1, [(some 700000, some 3)]⟩

/-- Fixture: a well-formed two-column file. -/
def goodFile : SourceFile := ⟨"GOOD", 2, [(some 700001, some 4)]⟩

/-- Fixture: a batch holding one malformed and one well-formed file. -/
def mixedBatch : List SourceFile := [badFile, goodFile]

/-- Fixture: a file with a failing date cell and a failing value cell. -/
def parseFile : SourceFile := ⟨"P", 2, [(some 7, some 1), (none, some 5), (some 9, none)]⟩

/-- Fixture: a post-cutoff panel with one sparse and one dense column. -/
def prunePanel : Panel :=
  ⟨["a", "b"], [(mkDate 2020 1 31, [none, some 1]), (mkDate 2020 2 29, [none, some 2])]⟩

/-- Fixture: a panel whose recession column holds the out-of-range value 2. -/
def usrecPanel : Panel := ⟨["USREC"], [(mkDate 2020 1 31, [some 2])]⟩

/-- Fixture: a three-class panel for the fill and normalization witnesses. -/
def fillPanel : Panel :=
  ⟨["DGS1", "UNRATE", "USREC"],
   [(mkDate 2020 1 31, [some 1, none, none]),
    (mkDate 2020 2 29, [none, some 5, some 1]),
    (mkDate 2020 3 31, [none, none, none])]⟩

/-- Fixture: the series of the spec's concrete scenario, first file. -/
def exSeriesA : Series := [(mkDate 2020 1 5, some 1), (mkDate 2020 2 10, some 2)]

/-- Fixture: the series of the spec's concrete scenario, second file. -/
def exSeriesB : Series := [(mkDate 2020 1 15, some 10)]

/-- Fixture: the two scenario series in file order. -/
def exListAB : List (String × Series) := [("A", exSeriesA), ("B", exSeriesB)]

/-- Fixture: the two scenario series in swapped order. -/
def exListBA : List (String × Series) := [("B", exSeriesB), ("A", exSeriesA)]

/-- Fixture: the merged (pre-sort) frame of `exListAB`. -/
def mergedAB : Panel :=
  ⟨["A", "B"],
   [(mkDate 2020 1 5, [some 1, none]), (mkDate 2020 2 10, [some 2, none]),
    (mkDate 2020 1 15, [none, some 10])]⟩

/-- Fixture: the sorted rows of `mergedAB`. -/
def sortedABRows : List Row :=
  [(mkDate 2020 1 5, [some 1, none]), (mkDate 2020 1 15, [none, some 10]),
   (mkDate 2020 2 10, [some 2, none])]

/-- Fixture: the alignment outcome of `exListAB`. -/
def alignedAB : Panel := ⟨["A", "B"], sortedABRows⟩

/-- Fixture: the merged (pre-sort) frame of `exListBA`. -/
def mergedBA : Panel :=
  ⟨["B", "A"],
   [(mkDate 2020 1 15, [some 10, none]), (mkDate 2020 1 5, [none, some 1]),
    (mkDate 2020 2 10, [none, some 2])]⟩

/-- Fixture: the sorted rows of `mergedBA`. -/
def sortedBARows : List Row :=
  [(mkDate 2020 1 5, [none, some 1]), (mkDate 2020 1 15, [some 10, none]),
   (mkDate 2020 2 10, [none, some 2])]

/-- Fixture: the alignment outcome of `exListBA`. -/
def alignedBA : Panel := ⟨["B", "A"], sortedBARows⟩

/-- Fixture: first row of the aligned scenario panel. -/
def resampleHead : Row := (mkDate 2020 1 5, [some 1, none])

/-- Fixture: remaining rows of the aligned scenario panel. -/
def resampleTail : List Row :=
  [(mkDate 2020 1 15, [none, some 10]), (mkDate 2020 2 10, [some 2, none])]

/-- Fixture: the aligned panel of the concrete scenario (sorted, unique
dates), input of the resampler. -/
def resamplePanel : Panel := ⟨["A", "B"], resampleHead :: resampleTail⟩

/-- Fixture: the batch for the pipeline-determinism witness. -/
def pipeBatch : List SourceFile := [goodFile, badFile]

/-! ### Theorems -/

theorem find?_eq_head?_filter {α : Type} (p : α → Bool) (l : List α) :
    l.find? p = (l.filter p).head? := by
  induction l with
  | nil => rfl
  | cons a l ih =>
    cases h : p a with
    | true => rw [List.find?_cons_of_pos _ h, List.filter_cons_of_pos h]; rfl
    | false => rw [List.find?_cons_of_neg _ (by simp [h]), List.filter_cons_of_neg (by simp [h])]; exact ih

theorem find?_all_pos {α : Type} {p : α → Bool} {l : List α} (h : ∀ x ∈ l, p x = true) :
    l.find? p = l.head? := by
  cases l with
  | nil => rfl
  | cons a l => rw [List.find?_cons_of_pos _ (h a (List.mem_cons_self a l))]; rfl

theorem find?_filter_sub {α : Type} {p q : α → Bool} (l : List α)
    (h : ∀ x ∈ l, p x = true → q x = true) :
    (l.filter q).find? p = l.find? p := by
  induction l with
  | nil => rfl
  | cons a l ih =>
    have ih' := ih (fun x hx => h x (List.mem_cons_of_mem _ hx))
    cases hq : q a with
    | true =>
      rw [List.filter_cons_of_pos hq]
      cases hp : p a with
      | true => rw [List.find?_cons_of_pos _ hp, List.find?_cons_of_pos _ hp]
      | false =>
        rw [List.find?_cons_of_neg _ (by simp [hp]), List.find?_cons_of_neg _ (by simp [hp])]
        exact ih'
    | false =>
      have hp : p a = false := by
        cases hp : p a with
        | true => exact absurd (h a (List.mem_cons_self a l) hp) (by simp [hq])
        | false => rfl
      rw [List.filter_cons_of_neg (by simp [hq]), List.find?_cons_of_neg _ (by simp [hp])]
      exact ih'

theorem mergeRow_key {s : Series} {r y : Row} (hy : y ∈ mergeRow s r) : y.1 = r.1 := by
  unfold mergeRow at hy
  cases h : s.filter (fun x => x.1 == r.1) with
  | nil => rw [h] at hy; simp at hy; rw [hy]
  | cons m ms =>
    rw [h] at hy
    simp only [List.mem_map] at hy
    obtain ⟨x, _, rfl⟩ := hy
    rfl

theorem mergeRow_head? (s : Series) (r : Row) :
    (mergeRow s r).head? = some (r.1, r.2 ++ [firstVal s r.1]) := by
  unfold mergeRow firstVal
  rw [find?_eq_head?_filter]
  cases h : s.filter (fun x => x.1 == r.1) with
  | nil => simp
  | cons m ms => simp

theorem find?_flatMap_mergeRow (s : Series) (l : List Row) (d : Date) :
    (l.flatMap (mergeRow s)).find? (fun y => y.1 == d)
      = (l.find? (fun r => r.1 == d)).map (fun r => (r.1, r.2 ++ [firstVal s r.1])) := by
  induction l with
  | nil => rfl
  | cons r l ih =>
    rw [List.flatMap_cons, List.find?_append]
    cases h : (r.1 == d) with
    | true =>
      have h1 : (mergeRow s r).find? (fun y => y.1 == d) = some (r.1, r.2 ++ [firstVal s r.1]) := by
        rw [find?_all_pos (fun y hy => by rw [show y.1 = r.1 from mergeRow_key hy]; exact h),
          mergeRow_head?]
      have h2 : List.find? (fun r => r.1 == d) (r :: l) = some r := List.find?_cons_of_pos _ h
      rw [h1, h2]
      rfl
    | false =>
      have h1 : (mergeRow s r).find? (fun y => y.1 == d) = none :=
        List.find?_eq_none.2 (fun y hy => by simp [mergeRow_key hy, h])
      have h2 : List.find? (fun r => r.1 == d) (r :: l) = List.find? (fun r => r.1 == d) l :=
        List.find?_cons_of_neg _ (by simp [h])
      rw [h1, h2, Option.none_or, ih]

theorem find?_unmatched (s : Series) (rows : List Row) (d : Date) (n : Nat)
    (hno : rows.find? (fun r => r.1 == d) = none) :
    ((s.filter (fun x => rows.all (fun r => !(r.1 == x.1)))).map
      (fun x => (x.1, padRow n ++ [x.2]))).find? (fun y => y.1 == d)
    = (s.find? (fun x => x.1 == d)).map (fun x => (x.1, padRow n ++ [x.2])) := by
  rw [List.find?_map]
  have hcomp : ((fun y : Row => y.1 == d) ∘ fun x : Date × Val => (x.1, padRow n ++ [x.2]))
      = fun x : Date × Val => x.1 == d := rfl
  rw [hcomp, find?_filter_sub]
  intro x hx hpx
  rw [List.all_eq_true]
  intro r hr
  have h1 : ¬ (r.1 == d) = true := List.find?_eq_none.1 hno r hr
  have h2 : x.1 = d := by simpa using hpx
  simp only [Bool.not_eq_true', beq_eq_false_iff_ne, ne_eq, h2]
  intro hc
  exact h1 (by simp [hc])

theorem firstVal_of_find?_none {s : Series} {d : Date}
    (hs : s.find? (fun x => x.1 == d) = none) : firstVal s d = none := by
  unfold firstVal
  rw [hs]

theorem firstVal_of_find?_some {s : Series} {d : Date} {x : Date × Val}
    (hs : s.find? (fun x => x.1 == d) = some x) : firstVal s d = x.2 := by
  unfold firstVal
  rw [hs]

theorem map_firstVal_of_not_union {L : List (String × Series)} {d : Date}
    (hu : unionHas L d = false) : L.map (fun q => firstVal q.2 d) = padRow L.length := by
  unfold padRow
  induction L with
  | nil => rfl
  | cons q L ih =>
    unfold unionHas at hu
    rw [List.any_cons, Bool.or_eq_false_iff] at hu
    have hfv : firstVal q.2 d = none := by
      apply firstVal_of_find?_none
      rw [List.find?_eq_none]
      intro x hx
      have := List.any_eq_false.1 hu.1 x hx
      simpa using this
    have ih' := ih hu.2
    simp only [List.map_cons, hfv, List.length_cons, List.replicate_succ, ih']

theorem mergeInv_seriesPanel (q : String × Series) : MergeInv [q] (seriesPanel q) := by
  refine ⟨rfl, ?_⟩
  intro d
  unfold firstRowAt seriesPanel
  show (q.2.map (fun x => (x.1, [x.2]))).find? (fun r => r.1 == d) = _
  rw [List.find?_map]
  have hcomp : ((fun r : Row => r.1 == d) ∘ fun x : Date × Val => (x.1, [x.2]))
      = fun x : Date × Val => x.1 == d := rfl
  rw [hcomp]
  cases hs : q.2.find? (fun x => x.1 == d) with
  | some x =>
    have hx1 : x.1 = d := by simpa using List.find?_some hs
    have hany : unionHas [q] d = true := by
      unfold unionHas
      simp only [List.any_cons, List.any_nil, Bool.or_false, List.any_eq_true]
      exact ⟨x, List.mem_of_find?_eq_some hs, by simp [hx1]⟩
    simp [hany, comboRow, firstVal_of_find?_some hs, hx1]
  | none =>
    have hany : unionHas [q] d = false := by
      unfold unionHas
      simp only [List.any_cons, List.any_nil, Bool.or_false, List.any_eq_false]
      intro x hx
      have := List.find?_eq_none.1 hs x hx
      simpa using this
    simp [hany]

theorem mergeInv_step {L : List (String × Series)} {P : Panel} (h : MergeInv L P)
    (c : String) (s : Series) : MergeInv (L ++ [(c, s)]) (mergeStep P c s) := by
  obtain ⟨hcols, hrows⟩ := h
  have hlen : P.cols.length = L.length := by rw [hcols]; simp
  refine ⟨by simp [mergeStep, hcols], ?_⟩
  intro d
  unfold firstRowAt at hrows ⊢
  show (P.rows.flatMap (mergeRow s) ++ _).find? (fun r => r.1 == d) = _
  rw [List.find?_append, find?_flatMap_mergeRow]
  cases hu : unionHas L d with
  | true =>
    have h0 := hrows d
    rw [hu, if_pos rfl] at h0
    have hu' : unionHas (L ++ [(c, s)]) d = true := by
      unfold unionHas at hu ⊢
      rw [List.any_append, hu, Bool.true_or]
    rw [h0, hu', if_pos rfl]
    simp [comboRow]
  | false =>
    have h0 := hrows d
    rw [hu] at h0
    simp only [Bool.false_eq_true, if_false] at h0
    rw [h0, Option.map_none' _, Option.none_or, find?_unmatched s P.rows d P.cols.length h0]
    cases hs : s.find? (fun x => x.1 == d) with
    | some x =>
      have hx1 : x.1 = d := by simpa using List.find?_some hs
      have hu' : unionHas (L ++ [(c, s)]) d = true := by
        unfold unionHas
        rw [List.any_append, Bool.or_eq_true]
        refine Or.inr ?_
        simp only [List.any_cons, List.any_nil, Bool.or_false, List.any_eq_true]
        exact ⟨x, List.mem_of_find?_eq_some hs, by simp [hx1]⟩
      rw [hu', if_pos rfl]
      show some (x.1, padRow P.cols.length ++ [x.2]) = some (comboRow (L ++ [(c, s)]) d)
      unfold comboRow
      rw [List.map_append, map_firstVal_of_not_union hu, hlen]
      simp [hx1, firstVal_of_find?_some hs, padRow]
    | none =>
      have hu' : unionHas (L ++ [(c, s)]) d = false := by
        unfold unionHas
        rw [List.any_append]
        have h1 : (L.any fun q => List.any q.2 fun x => x.1 == d) = false := hu
        rw [h1, Bool.false_or]
        simp only [List.any_cons, List.any_nil, Bool.or_false, List.any_eq_false]
        intro x hx
        have := List.find?_eq_none.1 hs x hx
        simpa using this
      rw [hu']
      simp

theorem mergeInv_foldl (rest : List (String × Series)) :
    ∀ (L : List (String × Series)) (P : Panel), MergeInv L P →
      MergeInv (L ++ rest) (rest.foldl (fun p q => mergeStep p q.1 q.2) P) := by
  induction rest with
  | nil => intro L P h; simpa using h
  | cons q rest ih =>
    intro L P h
    have h' := mergeInv_step h q.1 q.2
    have h'' := ih (L ++ [(q.1, q.2)]) _ h'
    simpa [List.append_assoc] using h''

theorem mergeAll_inv (q : String × Series) (rest : List (String × Series)) :
    ∃ P, mergeAll (q :: rest) = some P ∧ MergeInv (q :: rest) P := by
  refine ⟨_, rfl, ?_⟩
  have := mergeInv_foldl rest [q] (seriesPanel q) (mergeInv_seriesPanel q)
  simpa using this

theorem filter_key_cons_true {r : Row} {d : Date} (l : List Row) (h : (r.1 == d) = true) :
    (r :: l).filter (fun y => y.1 == d) = r :: l.filter (fun y => y.1 == d) :=
  List.filter_cons_of_pos h

theorem filter_key_cons_false {r : Row} {d : Date} (l : List Row) (h : (r.1 == d) = false) :
    (r :: l).filter (fun y => y.1 == d) = l.filter (fun y => y.1 == d) :=
  List.filter_cons_of_neg (by simp [h])

theorem find_key_cons_true {r : Row} {d : Date} (l : List Row) (h : (r.1 == d) = true) :
    (r :: l).find? (fun y => y.1 == d) = some r :=
  List.find?_cons_of_pos _ h

theorem find_key_cons_false {r : Row} {d : Date} (l : List Row) (h : (r.1 == d) = false) :
    (r :: l).find? (fun y => y.1 == d) = l.find? (fun y => y.1 == d) :=
  List.find?_cons_of_neg _ (by simp [h])

theorem filter_key_orderedInsert (d : Date) (x : Row) (s : List Row) :
    (List.orderedInsert rowLe x s).filter (fun y => y.1 == d)
      = if x.1 = d then x :: s.filter (fun y => y.1 == d)
        else s.filter (fun y => y.1 == d) := by
  induction s with
  | nil =>
    by_cases h : x.1 = d <;> simp [List.orderedInsert, h]
  | cons b s ih =>
    simp only [List.orderedInsert]
    by_cases hr : rowLe x b
    · rw [if_pos hr]
      by_cases h : x.1 = d
      · rw [if_pos h, filter_key_cons_true _ (by simp [h])]
      · rw [if_neg h, filter_key_cons_false _ (by simp [h])]
    · rw [if_neg hr]
      have hbx : b.1 < x.1 := Nat.lt_of_not_le fun hle => hr hle
      by_cases h : x.1 = d
      · have hb : (b.1 == d) = false := by
          simp only [beq_eq_false_iff_ne, ne_eq]
          intro hc
          rw [hc, h] at hbx
          exact lt_irrefl d hbx
        rw [filter_key_cons_false _ hb, ih, if_pos h, if_pos h, filter_key_cons_false _ hb]
      · cases hb : (b.1 == d) with
        | true =>
          rw [filter_key_cons_true _ hb, ih, if_neg h, if_neg h, filter_key_cons_true _ hb]
        | false =>
          rw [filter_key_cons_false _ hb, ih, if_neg h, if_neg h, filter_key_cons_false _ hb]

theorem filter_key_sortRows (d : Date) (l : List Row) :
    (sortRows l).filter (fun y => y.1 == d) = l.filter (fun y => y.1 == d) := by
  unfold sortRows
  induction l with
  | nil => rfl
  | cons x l ih =>
    rw [List.insertionSort, filter_key_orderedInsert d x _, ih]
    by_cases h : x.1 = d
    · rw [if_pos h, filter_key_cons_true _ (by simp [h])]
    · rw [if_neg h, filter_key_cons_false _ (by simp [h])]

theorem find?_sortRows (l : List Row) (d : Date) :
    (sortRows l).find? (fun y => y.1 == d) = l.find? (fun y => y.1 == d) := by
  rw [find?_eq_head?_filter, find?_eq_head?_filter, filter_key_sortRows]

theorem find?_dedupFirstAux (l : List Row) (d : Date) :
    ∀ (seen : List Date), seen.contains d = false →
    (dedupFirstAux seen l).find? (fun y => y.1 == d) = l.find? (fun y => y.1 == d) := by
  induction l with
  | nil => intro seen _; rfl
  | cons r l ih =>
    intro seen hd
    simp only [dedupFirstAux]
    by_cases hc : seen.contains r.1
    · rw [if_pos hc]
      have hr : (r.1 == d) = false := by
        simp only [beq_eq_false_iff_ne, ne_eq]
        intro h
        rw [h, hd] at hc
        cases hc
      rw [ih seen hd, find_key_cons_false _ hr]
    · rw [if_neg hc]
      cases hr : (r.1 == d) with
      | true =>
        rw [find_key_cons_true _ hr, find_key_cons_true _ hr]
      | false =>
        rw [find_key_cons_false _ hr, find_key_cons_false _ hr]
        refine ih (r.1 :: seen) ?_
        simp only [List.contains_cons, Bool.or_eq_false_iff]
        refine ⟨?_, hd⟩
        simp only [beq_eq_false_iff_ne, ne_eq] at hr ⊢
        intro hc
        exact hr hc.symm

theorem dedupFirstAux_sublist (l : List Row) :
    ∀ seen : List Date, (dedupFirstAux seen l).Sublist l := by
  induction l with
  | nil => intro seen; simp [dedupFirstAux]
  | cons r l ih =>
    intro seen
    simp only [dedupFirstAux]
    by_cases hc : seen.contains r.1
    · rw [if_pos hc]
      exact (ih seen).cons r
    · rw [if_neg hc]
      exact (ih _).cons₂ r

theorem dedupFirstAux_nodup (l : List Row) :
    ∀ seen : List Date, ((dedupFirstAux seen l).map Prod.fst).Nodup
      ∧ ∀ d ∈ (dedupFirstAux seen l).map Prod.fst, seen.contains d = false := by
  induction l with
  | nil => exact fun seen => ⟨List.nodup_nil, by simp [dedupFirstAux]⟩
  | cons r l ih =>
    intro seen
    simp only [dedupFirstAux]
    by_cases hc : seen.contains r.1
    · rw [if_pos hc]
      exact ih seen
    · rw [if_neg hc]
      obtain ⟨h1, h2⟩ := ih (r.1 :: seen)
      constructor
      · rw [List.map_cons, List.nodup_cons]
        refine ⟨fun hmem => ?_, h1⟩
        have := h2 _ hmem
        rw [List.contains_cons] at this
        simp at this
      · intro d hd
        rw [List.map_cons, List.mem_cons] at hd
        rcases hd with rfl | hd
        · simpa using hc
        · have := h2 d hd
          rw [List.contains_cons, Bool.or_eq_false_iff] at this
          exact this.2

theorem sortDedup_find? (P : Panel) (d : Date) :
    firstRowAt (sortDedup P).rows d = firstRowAt P.rows d := by
  unfold firstRowAt sortDedup dedupFirstRows
  rw [find?_dedupFirstAux _ d [] rfl, find?_sortRows]

theorem sortDedup_sorted (P : Panel) :
    ((sortDedup P).rows.map Prod.fst).Pairwise (fun a b => a < b) := by
  have hs : List.Sorted rowLe (sortRows P.rows) := List.sorted_insertionSort rowLe P.rows
  have hsub := dedupFirstAux_sublist (sortRows P.rows) []
  have hs' : List.Pairwise rowLe (sortDedup P).rows := List.Pairwise.sublist hsub hs
  have hle : ((sortDedup P).rows.map Prod.fst).Pairwise (fun a b => a ≤ b) :=
    List.Pairwise.map Prod.fst (fun a b h => h) hs'
  have hnd : ((sortDedup P).rows.map Prod.fst).Nodup := (dedupFirstAux_nodup _ []).1
  exact (hle.and hnd).imp (fun h => lt_of_le_of_ne h.1 h.2)

theorem align_spec (q : String × Series) (rest : List (String × Series)) :
    ∃ P, align (q :: rest) = some P ∧ P.cols = (q :: rest).map Prod.fst ∧
      (∀ d, firstRowAt P.rows d
        = if unionHas (q :: rest) d then some (comboRow (q :: rest) d) else none) ∧
      (P.rows.map Prod.fst).Pairwise (fun a b => a < b) := by
  obtain ⟨P0, hP0, hcols, hrows⟩ := mergeAll_inv q rest
  refine ⟨sortDedup P0, ?_, hcols, ?_, sortDedup_sorted P0⟩
  · unfold align
    rw [hP0]
    rfl
  · intro d
    rw [sortDedup_find?]
    exact hrows d

theorem combo_getD {c : String} {s : Series} (d : Date) :
    ∀ {L : List (String × Series)}, (L.map Prod.fst).Nodup → (c, s) ∈ L →
    (L.map (fun q => firstVal q.2 d)).getD ((L.map Prod.fst).indexOf c) none
      = firstVal s d := by
  intro L
  induction L with
  | nil => intro _ hq; cases hq
  | cons q L ih =>
    intro hnd hq
    rw [List.map_cons, List.nodup_cons] at hnd
    rcases List.mem_cons.1 hq with heq | hq'
    · subst heq
      simp [List.indexOf_cons]
    · have hne : (q.1 == c) = false := by
        simp only [beq_eq_false_iff_ne, ne_eq]
        intro he
        exact hnd.1 (he ▸ List.mem_map.2 ⟨(c, s), hq', rfl⟩)
      rw [List.map_cons, List.map_cons, List.indexOf_cons, hne, cond_false,
        List.getD_cons_succ]
      exact ih hnd.2 hq'

theorem firstVal_of_not_union {L : List (String × Series)} {c : String} {s : Series}
    (hq : (c, s) ∈ L) {d : Date} (hu : unionHas L d = false) : firstVal s d = none := by
  apply firstVal_of_find?_none
  rw [List.find?_eq_none]
  intro x hx
  unfold unionHas at hu
  have h1 := List.any_eq_false.1 hu (c, s) hq
  have h1' : (s.any fun x => x.1 == d) = false := by
    rw [Bool.eq_false_iff]
    exact h1
  exact List.any_eq_false.1 h1' x hx

theorem get_of_inv {L : List (String × Series)} {P : Panel}
    (hnd : (L.map Prod.fst).Nodup) (hcols : P.cols = L.map Prod.fst)
    (hrows : ∀ d, firstRowAt P.rows d = if unionHas L d then some (comboRow L d) else none)
    {c : String} {s : Series} (hq : (c, s) ∈ L) (d : Date) :
    P.get d c = firstVal s d := by
  unfold Panel.get Panel.cell
  have h0 : P.rows.find? (fun r => r.1 == d) = firstRowAt P.rows d := rfl
  rw [h0, hrows d]
  cases hu : unionHas L d with
  | true =>
    rw [if_pos rfl]
    show (comboRow L d).2.getD (P.cols.indexOf c) none = firstVal s d
    rw [hcols]
    exact combo_getD d hnd hq
  | false =>
    rw [if_neg (by simp)]
    exact (firstVal_of_not_union hq hu).symm

theorem get_of_inv_not_mem {L : List (String × Series)} {P : Panel}
    (hcols : P.cols = L.map Prod.fst)
    (hrows : ∀ d, firstRowAt P.rows d = if unionHas L d then some (comboRow L d) else none)
    {c : String} (hc : c ∉ L.map Prod.fst) (d : Date) :
    P.get d c = none := by
  unfold Panel.get Panel.cell
  have h0 : P.rows.find? (fun r => r.1 == d) = firstRowAt P.rows d := rfl
  rw [h0, hrows d]
  cases hu : unionHas L d with
  | true =>
    rw [if_pos rfl]
    show (comboRow L d).2.getD (P.cols.indexOf c) none = none
    apply List.getD_eq_default
    have h1 : (comboRow L d).2.length = (L.map Prod.fst).length := by simp [comboRow]
    rw [h1, hcols, List.indexOf_eq_length.2 hc]
  | false =>
    rw [if_neg (by simp)]

theorem dates_of_inv {L : List (String × Series)} {P : Panel}
    (hrows : ∀ d, firstRowAt P.rows d = if unionHas L d then some (comboRow L d) else none)
    (d : Date) : d ∈ P.rows.map Prod.fst ↔ unionHas L d = true := by
  constructor
  · intro hd
    obtain ⟨r, hr, hrd⟩ := List.mem_map.1 hd
    cases hu : unionHas L r.1 with
    | true => rw [← hrd]; exact hu
    | false =>
      exfalso
      have h0 := hrows r.1
      rw [hu] at h0
      simp only [Bool.false_eq_true, if_false] at h0
      have := List.find?_eq_none.1 h0 r hr
      simp at this
  · intro hu
    have h0 := hrows d
    rw [hu, if_pos rfl] at h0
    have hmem : comboRow L d ∈ P.rows := List.mem_of_find?_eq_some h0
    exact List.mem_map.2 ⟨comboRow L d, hmem, rfl⟩

theorem unionHas_perm {L L' : List (String × Series)} (h : L.Perm L') (d : Date) :
    unionHas L d = unionHas L' d := by
  unfold unionHas
  cases hu : L'.any (fun q => q.2.any fun x => x.1 == d) with
  | true =>
    obtain ⟨q, hq, hx⟩ := List.any_eq_true.1 hu
    exact List.any_eq_true.2 ⟨q, h.mem_iff.2 hq, hx⟩
  | false =>
    rw [List.any_eq_false]
    intro q hq
    exact List.any_eq_false.1 hu q (h.mem_iff.1 hq)

theorem sorted_lt_eq_of_mem_iff :
    ∀ {l l' : List Date}, l.Pairwise (fun a b => a < b) → l'.Pairwise (fun a b => a < b) →
      (∀ d, d ∈ l ↔ d ∈ l') → l = l' := by
  intro l
  induction l with
  | nil =>
    intro l' _ _ hm
    cases l' with
    | nil => rfl
    | cons b l' => exact absurd ((hm b).2 (List.mem_cons_self b l')) (List.not_mem_nil b)
  | cons a l ih =>
    intro l' h h' hm
    cases l' with
    | nil => exact absurd ((hm a).1 (List.mem_cons_self a l)) (List.not_mem_nil a)
    | cons b l' =>
      rw [List.pairwise_cons] at h h'
      have hab : a = b := by
        have ha := (hm a).1 (List.mem_cons_self a l)
        have hb := (hm b).2 (List.mem_cons_self b l')
        rcases List.mem_cons.1 ha with h1 | h1
        · exact h1
        · rcases List.mem_cons.1 hb with h2 | h2
          · exact h2.symm
          · exact absurd (lt_trans (h.1 b h2) (h'.1 a h1)) (lt_irrefl a)
      subst hab
      have hm' : ∀ d, d ∈ l ↔ d ∈ l' := by
        intro d
        constructor
        · intro hd
          rcases List.mem_cons.1 ((hm d).1 (List.mem_cons_of_mem a hd)) with rfl | h2
          · exact absurd (h.1 d hd) (lt_irrefl d)
          · exact h2
        · intro hd
          rcases List.mem_cons.1 ((hm d).2 (List.mem_cons_of_mem a hd)) with rfl | h2
          · exact absurd (h'.1 d hd) (lt_irrefl d)
          · exact h2
      rw [ih h.2 h'.2 hm']

/-- Helper: under the stable-sort resolution `align` of the alignment
stage, merging a collection with distinct identifiers in any two orders
gives panels with the same date axis, permuted columns, and the same value
at every (date, column). -/
theorem align_perm_agree
    (L L' : List (String × Series)) (hperm : L.Perm L')
    (hnd : (L.map Prod.fst).Nodup) (hne : L ≠ []) :
    ∃ P P', align L = some P ∧ align L' = some P' ∧
      P.dates = P'.dates ∧ P.cols.Perm P'.cols ∧ ∀ d c, P.get d c = P'.get d c := by
  have hne' : L' ≠ [] := by
    intro h
    rw [h] at hperm
    exact hne hperm.eq_nil
  obtain ⟨q, rest, rfl⟩ : ∃ q rest, L = q :: rest := by
    cases L with
    | nil => exact absurd rfl hne
    | cons q rest => exact ⟨q, rest, rfl⟩
  obtain ⟨q', rest', rfl⟩ : ∃ q rest, L' = q :: rest := by
    cases L' with
    | nil => exact absurd rfl hne'
    | cons q rest => exact ⟨q, rest, rfl⟩
  obtain ⟨P, hP, hcols, hrows, hsorted⟩ := align_spec q rest
  obtain ⟨P', hP', hcols', hrows', hsorted'⟩ := align_spec q' rest'
  have hnd' : ((q' :: rest').map Prod.fst).Nodup := ((hperm.map Prod.fst).nodup_iff).1 hnd
  refine ⟨P, P', hP, hP', ?_, ?_, ?_⟩
  · apply sorted_lt_eq_of_mem_iff hsorted hsorted'
    intro d
    rw [dates_of_inv hrows d, dates_of_inv hrows' d, unionHas_perm hperm d]
  · rw [hcols, hcols']
    exact hperm.map Prod.fst
  · intro d c
    by_cases hc : c ∈ (q :: rest).map Prod.fst
    · obtain ⟨p, hp, hpc⟩ := List.mem_map.1 hc
      have hp' : (c, p.2) ∈ q :: rest := by
        rw [show (c, p.2) = p by rw [← hpc]]
        exact hp
      have hq2 : (c, p.2) ∈ q' :: rest' := hperm.mem_iff.1 hp'
      rw [get_of_inv hnd hcols hrows hp' d, get_of_inv hnd' hcols' hrows' hq2 d]
    · have hc' : c ∉ (q' :: rest').map Prod.fst := by
        intro h
        exact hc ((hperm.map Prod.fst).mem_iff.2 h)
      rw [get_of_inv_not_mem hcols hrows hc d, get_of_inv_not_mem hcols' hrows' hc' d]

/-- C2 counterexample: with duplicate in-series dates, which duplicate row
survives `drop_duplicates` depends on the unstable sort's tie order, and
that order can differ across merge orders — the two panels below are valid
alignment outcomes of the two merge orders of one collection, yet they
disagree on the value at (700000, `"DUP"`). -/
theorem aligner_order_dependent_counterexample :
    dupListAB.Perm dupListBA ∧
    alignRel dupListAB dupPanelAB ∧ alignRel dupListBA dupPanelBA ∧
    dupPanelAB.get 700000 "DUP" = some 1 ∧ dupPanelBA.get 700000 "DUP" = some 2 ∧
    ¬ (dupPanelAB.dates = dupPanelBA.dates ∧ dupPanelAB.cols.Perm dupPanelBA.cols ∧
        ∀ d c, dupPanelAB.get d c = dupPanelBA.get d c) := by
  refine ⟨by decide, ?_, ?_, by decide, by decide, ?_⟩
  · exact ⟨⟨["DUP", "B"], [(700000, [some 1, some 10]), (700000, [some 2, some 10])]⟩,
      [(700000, [some 1, some 10]), (700000, [some 2, some 10])],
      by decide, ⟨by decide, by decide⟩, by decide⟩
  · exact ⟨⟨["B", "DUP"], [(700000, [some 10, some 1]), (700000, [some 10, some 2])]⟩,
      [(700000, [some 10, some 2]), (700000, [some 10, some 1])],
      by decide, ⟨by decide, by decide⟩, by decide⟩
  · rintro ⟨-, -, hget⟩
    have h := hget 700000 "DUP"
    rw [show dupPanelAB.get 700000 "DUP" = some 1 from by decide,
      show dupPanelBA.get 700000 "DUP" = some 2 from by decide] at h
    exact absurd h (by decide)

theorem mergeRow_singleton {s : Series} (hs : (s.map Prod.fst).Nodup) (r : Row) :
    mergeRow s r = [(r.1, r.2 ++ [firstVal s r.1])] := by
  unfold mergeRow
  cases hf : s.filter (fun x => x.1 == r.1) with
  | nil =>
    rw [firstVal_of_find?_none (by rw [find?_eq_head?_filter, hf]; rfl)]
  | cons m ms =>
    have hms : ms = [] := by
      cases hx : ms with
      | nil => rfl
      | cons x ms' =>
        exfalso
        have hsub : ((m :: ms).map Prod.fst).Nodup := by
          have h1 : (m :: ms).Sublist s := hf ▸ List.filter_sublist s
          exact List.Nodup.sublist (h1.map Prod.fst) hs
        have hmmem : m ∈ s.filter (fun x => x.1 == r.1) := by
          rw [hf]
          exact List.mem_cons_self _ _
        have hxmem : x ∈ s.filter (fun x => x.1 == r.1) := by
          rw [hf, hx]
          exact List.mem_cons_of_mem _ (List.mem_cons_self _ _)
        have hm1 : m.1 = r.1 := by simpa using (List.mem_filter.1 hmmem).2
        have hx1 : x.1 = r.1 := by simpa using (List.mem_filter.1 hxmem).2
        rw [List.map_cons, List.nodup_cons] at hsub
        apply hsub.1
        have hxms : x ∈ ms := by
          rw [hx]
          exact List.mem_cons_self _ _
        rw [hm1, ← hx1]
        exact List.mem_map.2 ⟨x, hxms, rfl⟩
    subst hms
    rw [firstVal_of_find?_some
      (show s.find? (fun x => x.1 == r.1) = some m by rw [find?_eq_head?_filter, hf]; rfl)]
    rfl

theorem flatMap_mergeRow_eq_map {s : Series} (hs : (s.map Prod.fst).Nodup) (l : List Row) :
    l.flatMap (mergeRow s) = l.map (fun r => (r.1, r.2 ++ [firstVal s r.1])) := by
  induction l with
  | nil => rfl
  | cons r l ih =>
    rw [List.flatMap_cons, mergeRow_singleton hs r, ih]
    rfl

theorem mergeStep_nodup_dates {P : Panel} {s : Series} (c : String)
    (hP : (P.rows.map Prod.fst).Nodup) (hs : (s.map Prod.fst).Nodup) :
    ((mergeStep P c s).rows.map Prod.fst).Nodup := by
  show ((P.rows.flatMap (mergeRow s)
      ++ (s.filter (fun x => P.rows.all (fun r => !(r.1 == x.1)))).map
          (fun x => (x.1, padRow P.cols.length ++ [x.2]))).map Prod.fst).Nodup
  rw [List.map_append, flatMap_mergeRow_eq_map hs, List.map_map, List.map_map]
  have h1 : P.rows.map (Prod.fst ∘ fun r : Row => (r.1, r.2 ++ [firstVal s r.1]))
      = P.rows.map Prod.fst := rfl
  have h2 : (s.filter (fun x => P.rows.all (fun r => !(r.1 == x.1)))).map
        (Prod.fst ∘ fun x : Date × Val => (x.1, padRow P.cols.length ++ [x.2]))
      = (s.filter (fun x => P.rows.all (fun r => !(r.1 == x.1)))).map Prod.fst := rfl
  rw [h1, h2]
  apply List.Nodup.append hP
  · exact List.Nodup.sublist ((List.filter_sublist s).map Prod.fst) hs
  · intro d hd1 hd2
    obtain ⟨x, hx, rfl⟩ := List.mem_map.1 hd2
    have hq := (List.mem_filter.1 hx).2
    obtain ⟨r, hr, hrx⟩ := List.mem_map.1 hd1
    have hall := List.all_eq_true.1 hq r hr
    simp [hrx] at hall

theorem foldl_nodup_dates (rest : List (String × Series)) :
    ∀ (P : Panel), (P.rows.map Prod.fst).Nodup →
      (∀ q ∈ rest, (q.2.map Prod.fst).Nodup) →
      (((rest.foldl (fun p q => mergeStep p q.1 q.2) P)).rows.map Prod.fst).Nodup := by
  induction rest with
  | nil => intro P h _; exact h
  | cons q rest ih =>
    intro P hP hr
    exact ih (mergeStep P q.1 q.2)
      (mergeStep_nodup_dates q.1 hP (hr q (List.mem_cons_self _ _)))
      (fun q' h => hr q' (List.mem_cons_of_mem _ h))

theorem mergeAll_nodup_dates {L : List (String × Series)} {m : Panel}
    (hud : ∀ q ∈ L, (q.2.map Prod.fst).Nodup) (hm : mergeAll L = some m) :
    (m.rows.map Prod.fst).Nodup := by
  cases L with
  | nil =>
    have h : (none : Option Panel) = some m := hm
    cases h
  | cons q rest =>
    have hm' : some (rest.foldl (fun p q' => mergeStep p q'.1 q'.2) (seriesPanel q))
        = some m := hm
    injection hm' with hm'
    rw [← hm']
    have hbase : ((seriesPanel q).rows.map Prod.fst).Nodup := by
      show ((q.2.map (fun x => (x.1, [x.2]))).map Prod.fst).Nodup
      rw [List.map_map]
      exact hud q (List.mem_cons_self _ _)
    exact foldl_nodup_dates rest (seriesPanel q) hbase
      (fun q' h => hud q' (List.mem_cons_of_mem _ h))

theorem sorted_perm_unique {l₁ l₂ : List Row} (hperm : l₁.Perm l₂)
    (hs1 : l₁.Pairwise rowLe) (hs2 : l₂.Pairwise rowLe)
    (hnd : (l₁.map Prod.fst).Nodup) : l₁ = l₂ := by
  have hne1 : l₁.Pairwise (fun a b : Row => a.1 ≠ b.1) := List.pairwise_map.1 hnd
  have hlt1 : l₁.Pairwise (fun a b : Row => a.1 < b.1) :=
    (hs1.and hne1).imp (fun h => lt_of_le_of_ne h.1 h.2)
  have hnd2 : (l₂.map Prod.fst).Nodup := ((hperm.map Prod.fst).nodup_iff).1 hnd
  have hne2 : l₂.Pairwise (fun a b : Row => a.1 ≠ b.1) := List.pairwise_map.1 hnd2
  have hlt2 : l₂.Pairwise (fun a b : Row => a.1 < b.1) :=
    (hs2.and hne2).imp (fun h => lt_of_le_of_ne h.1 h.2)
  exact List.eq_of_perm_of_sorted hperm hlt1 hlt2

theorem alignRel_eq_align {L : List (String × Series)} {P : Panel}
    (hud : ∀ q ∈ L, (q.2.map Prod.fst).Nodup) (h : alignRel L P) :
    align L = some P := by
  obtain ⟨m, sorted, hm, ⟨hperm, hsort⟩, rfl⟩ := h
  have hnd : (m.rows.map Prod.fst).Nodup := mergeAll_nodup_dates hud hm
  have hperm2 : (sortRows m.rows).Perm sorted :=
    (List.perm_insertionSort rowLe m.rows).trans hperm
  have hsorted1 : (sortRows m.rows).Pairwise rowLe := List.sorted_insertionSort rowLe m.rows
  have hnd1 : ((sortRows m.rows).map Prod.fst).Nodup :=
    (((List.perm_insertionSort rowLe m.rows).map Prod.fst).nodup_iff).2 hnd
  have heq : sortRows m.rows = sorted := sorted_perm_unique hperm2 hsorted1 hsort hnd1
  unfold align
  rw [hm]
  show some (sortDedup m) = some ⟨m.cols, dedupFirstRows sorted⟩
  rw [show sortDedup m = ⟨m.cols, dedupFirstRows (sortRows m.rows)⟩ from rfl, heq]

/-- C2 amended: for collections whose series have unique within-series
dates (the spec's RawSeries invariant), order-independence holds in the
strongest sense — every valid alignment outcome of every permutation has
the same date axis, the same column set and the same value at every
(date, column); with duplicate in-series dates the surviving duplicate is
left to the unstable sort's tie order and may differ across merge orders. -/
theorem aligner_order_independent_unique_dates
    (L L' : List (String × Series)) (hperm : L.Perm L')
    (hnd : (L.map Prod.fst).Nodup)
    (hud : ∀ q ∈ L, (q.2.map Prod.fst).Nodup)
    (P P' : Panel) (hP : alignRel L P) (hP' : alignRel L' P') :
    P.dates = P'.dates ∧ P.cols.Perm P'.cols ∧ ∀ d c, P.get d c = P'.get d c := by
  have hud' : ∀ q ∈ L', (q.2.map Prod.fst).Nodup := fun q hq => hud q (hperm.mem_iff.2 hq)
  have hal : align L = some P := alignRel_eq_align hud hP
  have hal' : align L' = some P' := alignRel_eq_align hud' hP'
  have hne : L ≠ [] := by
    intro h
    rw [h] at hal
    have h0 : (none : Option Panel) = some P := hal
    cases h0
  obtain ⟨Q, Q', hQ, hQ', hdates, hcols, hget⟩ := align_perm_agree L L' hperm hnd hne
  rw [hal] at hQ
  rw [hal'] at hQ'
  injection hQ with hQ
  injection hQ' with hQ'
  rw [hQ, hQ']
  exact ⟨hdates, hcols, hget⟩

/-- Witness for the amended C2 at the spec's concrete two-series scenario,
with one explicit alignment outcome per merge order. -/
theorem aligner_order_independent_unique_dates_witness :
    (exListAB.Perm exListBA ∧ (exListAB.map Prod.fst).Nodup ∧
      (∀ q ∈ exListAB, (q.2.map Prod.fst).Nodup) ∧
      alignRel exListAB alignedAB ∧ alignRel exListBA alignedBA) ∧
    (alignedAB.dates = alignedBA.dates ∧ alignedAB.cols.Perm alignedBA.cols ∧
      ∀ d c, alignedAB.get d c = alignedBA.get d c) := by
  have hA : alignRel exListAB alignedAB :=
    ⟨mergedAB, sortedABRows, by decide, ⟨by decide, by decide⟩, by decide⟩
  have hB : alignRel exListBA alignedBA :=
    ⟨mergedBA, sortedBARows, by decide, ⟨by decide, by decide⟩, by decide⟩
  exact ⟨⟨by decide, by decide, by decide, hA, hB⟩,
    aligner_order_independent_unique_dates exListAB exListBA (by decide) (by decide)
      (by decide) alignedAB alignedBA hA hB⟩

/-- C6 counterexample: with zero loaded series, the alignment stage produces
no panel at all — in particular not an empty one. -/
theorem zero_series_counterexample : ¬ ∃ P, alignStage [] = Except.ok P := by
  rintro ⟨P, hP⟩
  rw [show alignStage [] = Except.error "AttributeError" from rfl] at hP
  cases hP

/-- C6 amended: with zero loaded series `master_df` is still `None` after the
merge loop, and the script raises at the alignment stage's
sort/de-duplication step (`AttributeError` on `None.sort_values`) instead of
producing an empty panel. -/
theorem zero_series_error :
    mergeAll [] = none ∧ alignStage [] = Except.error "AttributeError" :=
  ⟨rfl, rfl⟩

/-- C7 counterexample: the loader does not de-duplicate dates — a file with
two rows on one date keeps both, so its output dates are not unique; and the
aligned panel resolves the duplicate with the FIRST row's value (`1`), not
the last one's (`2`). -/
theorem loader_duplicate_dates_counterexample :
    loadSeries dupFile = Except.ok dupSeries ∧
    ¬ (dupSeries.map Prod.fst).Nodup ∧
    (∃ P, align dupList = some P ∧
      P.get 700000 "DUP" = some 1 ∧ firstVal dupSeries 700000 = some 1 ∧
      (some (1 : ℚ) : Val) ≠ some 2) :=
  ⟨rfl, by decide, ⟨⟨["DUP"], [(700000, [some 1])]⟩, by decide, by decide, by decide,
    by decide⟩⟩

theorem getD_append_length {α : Type} (l : List α) (a d : α) :
    (l ++ [a]).getD l.length d = a := by
  induction l with
  | nil => rfl
  | cons b l ih =>
    rw [List.cons_append, List.length_cons, List.getD_cons_succ]
    exact ih

theorem getD_replicate_lt {α : Type} (n i : Nat) (hi : i < n) (x d : α) :
    (List.replicate n x).getD i d = x := by
  induction n generalizing i with
  | zero => cases hi
  | succ n ih =>
    cases i with
    | zero => rfl
    | succ i' =>
      rw [List.replicate_succ, List.getD_cons_succ]
      exact ih i' (Nat.lt_of_succ_lt_succ hi)

theorem mergeProv_seriesPanel (q : String × Series) : MergeProv [q] (seriesPanel q) := by
  intro r hr
  obtain ⟨x, hx, rfl⟩ := List.mem_map.1 hr
  refine ⟨rfl, ?_⟩
  intro i hi
  have hi0 : i = 0 := Nat.lt_one_iff.1 hi
  subst hi0
  right
  exact ⟨x, hx, rfl, rfl⟩

theorem mergeProv_step {L : List (String × Series)} {P : Panel}
    (hlen : P.cols.length = L.length) (hprov : MergeProv L P) (c : String) (s : Series) :
    MergeProv (L ++ [(c, s)]) (mergeStep P c s) := by
  intro r' hr'
  have hLlen : (L ++ [(c, s)]).length = L.length + 1 := by simp
  rcases List.mem_append.1 hr' with hr1 | hr2
  · obtain ⟨r, hr, hrm⟩ := List.mem_flatMap.1 hr1
    obtain ⟨hrlen, hrprov⟩ := hprov r hr
    have hshape : ∃ v, r' = (r.1, r.2 ++ [v]) ∧
        (v = none ∨ ∃ x, x ∈ s ∧ x.1 = r.1 ∧ x.2 = v) := by
      unfold mergeRow at hrm
      cases hf : s.filter (fun x => x.1 == r.1) with
      | nil =>
        rw [hf] at hrm
        simp only [List.mem_singleton] at hrm
        exact ⟨none, hrm, Or.inl rfl⟩
      | cons m ms =>
        rw [hf] at hrm
        simp only [List.mem_map] at hrm
        obtain ⟨x, hx, rfl⟩ := hrm
        have hx' : x ∈ s.filter (fun x => x.1 == r.1) := by
          rw [hf]
          exact hx
        have hxs := List.mem_filter.1 hx'
        exact ⟨x.2, rfl, Or.inr ⟨x, hxs.1, by simpa using hxs.2, rfl⟩⟩
    obtain ⟨v, rfl, hv⟩ := hshape
    refine ⟨by simp [hrlen, hLlen], ?_⟩
    intro i hi
    rw [hLlen] at hi
    rcases Nat.lt_succ_iff_lt_or_eq.1 hi with hilt | hieq
    · show (r.2 ++ [v]).getD i none = none ∨
        ∃ x, x ∈ ((L ++ [(c, s)]).getD i ("", [])).2 ∧ x.1 = r.1 ∧
          x.2 = (r.2 ++ [v]).getD i none
      rw [List.getD_append _ _ _ _ (hrlen ▸ hilt), List.getD_append _ _ _ _ hilt]
      exact hrprov i hilt
    · subst hieq
      show (r.2 ++ [v]).getD L.length none = none ∨
        ∃ x, x ∈ ((L ++ [(c, s)]).getD L.length ("", [])).2 ∧ x.1 = r.1 ∧
          x.2 = (r.2 ++ [v]).getD L.length none
      have hgd : (r.2 ++ [v]).getD L.length none = v := by
        rw [← hrlen]
        exact getD_append_length r.2 v none
      have hgL : (L ++ [(c, s)]).getD L.length ("", []) = (c, s) := getD_append_length L _ _
      rw [hgd, hgL]
      rcases hv with rfl | ⟨x, hxs, hx1, hxv⟩
      · exact Or.inl rfl
      · exact Or.inr ⟨x, hxs, hx1, hxv⟩
  · obtain ⟨x, hx, rfl⟩ := List.mem_map.1 hr2
    have hxf := List.mem_filter.1 hx
    have hpadlen : (padRow P.cols.length).length = L.length := by
      simp [padRow, hlen]
    refine ⟨by simp [padRow, hlen, hLlen], ?_⟩
    intro i hi
    rw [hLlen] at hi
    rcases Nat.lt_succ_iff_lt_or_eq.1 hi with hilt | hieq
    · left
      show (padRow P.cols.length ++ [x.2]).getD i none = none
      rw [List.getD_append _ _ _ _ (hpadlen ▸ hilt)]
      exact getD_replicate_lt _ i (hlen ▸ hilt) none none
    · subst hieq
      show (padRow P.cols.length ++ [x.2]).getD L.length none = none ∨
        ∃ y, y ∈ ((L ++ [(c, s)]).getD L.length ("", [])).2 ∧ y.1 = x.1 ∧
          y.2 = (padRow P.cols.length ++ [x.2]).getD L.length none
      have hgd : (padRow P.cols.length ++ [x.2]).getD L.length none = x.2 := by
        rw [← hpadlen]
        exact getD_append_length _ _ _
      have hgL : (L ++ [(c, s)]).getD L.length ("", []) = (c, s) := getD_append_length L _ _
      rw [hgd, hgL]
      exact Or.inr ⟨x, hxf.1, rfl, rfl⟩

theorem mergeProv_foldl (rest : List (String × Series)) :
    ∀ (L : List (String × Series)) (P : Panel),
      P.cols = L.map Prod.fst → MergeProv L P →
      ((rest.foldl (fun p q => mergeStep p q.1 q.2) P).cols = (L ++ rest).map Prod.fst ∧
        MergeProv (L ++ rest) (rest.foldl (fun p q => mergeStep p q.1 q.2) P)) := by
  induction rest with
  | nil =>
    intro L P h1 h2
    constructor
    · simpa using h1
    · simpa using h2
  | cons q rest ih =>
    intro L P h1 h2
    have hlen : P.cols.length = L.length := by
      rw [h1]
      simp
    have hcols' : (mergeStep P q.1 q.2).cols = (L ++ [(q.1, q.2)]).map Prod.fst := by
      show P.cols ++ [q.1] = _
      rw [h1]
      simp
    have hprov' : MergeProv (L ++ [(q.1, q.2)]) (mergeStep P q.1 q.2) :=
      mergeProv_step hlen h2 q.1 q.2
    have hres := ih (L ++ [(q.1, q.2)]) _ hcols' hprov'
    simpa [List.append_assoc] using hres

theorem mergeAll_prov {L : List (String × Series)} {m : Panel}
    (hm : mergeAll L = some m) : MergeProv L m := by
  cases L with
  | nil =>
    have h : (none : Option Panel) = some m := hm
    cases h
  | cons q rest =>
    have hm' : some (rest.foldl (fun p q' => mergeStep p q'.1 q'.2) (seriesPanel q))
        = some m := hm
    injection hm' with hm'
    rw [← hm']
    have hres := (mergeProv_foldl rest [q] (seriesPanel q) rfl (mergeProv_seriesPanel q)).2
    simpa using hres

theorem mem_dates_iff_find? (rs : List Row) (d : Date) :
    d ∈ rs.map Prod.fst ↔ (rs.find? (fun r => r.1 == d)).isSome = true := by
  rw [List.find?_isSome]
  constructor
  · intro hd
    obtain ⟨r, hr, rfl⟩ := List.mem_map.1 hd
    exact ⟨r, hr, by simp⟩
  · rintro ⟨r, hr, hp⟩
    exact List.mem_map.2 ⟨r, hr, by simpa using hp⟩

/-- C7 amended: duplicate parsed dates are not resolved by the loader (its
output keeps them, always with a present date) nor by last-write-wins;
every outcome of the aligner's sort and `drop_duplicates` step has a
unique, non-missing date axis made of exactly the dates of the input
series, and each surviving cell holds either the missing marker or a value
that some row of the corresponding series carries at the row's date —
which of several duplicate rows survives is left to the unstable sort's
tie order. -/
theorem dedup_restores_unique_dates (L : List (String × Series)) (P : Panel)
    (hP : alignRel L P) :
    P.dates.Nodup ∧
    (∀ d, d ∈ P.dates ↔ unionHas L d = true) ∧
    (∀ r ∈ P.rows, ∀ i, i < L.length →
      r.2.getD i none = none ∨
      ∃ x, x ∈ (L.getD i ("", [])).2 ∧ x.1 = r.1 ∧ x.2 = r.2.getD i none) := by
  obtain ⟨m, sorted, hm, ⟨hperm, hsort⟩, rfl⟩ := hP
  obtain ⟨q, rest, rfl⟩ : ∃ q rest, L = q :: rest := by
    cases L with
    | nil =>
      have h : (none : Option Panel) = some m := hm
      cases h
    | cons q rest => exact ⟨q, rest, rfl⟩
  obtain ⟨m', hm', hinv⟩ := mergeAll_inv q rest
  rw [hm] at hm'
  injection hm' with hm'
  subst hm'
  obtain ⟨hcolsI, hrowsI⟩ := hinv
  have hprov := mergeAll_prov hm
  refine ⟨(dedupFirstAux_nodup sorted []).1, ?_, ?_⟩
  · intro d
    show d ∈ (dedupFirstRows sorted).map Prod.fst ↔ _
    rw [mem_dates_iff_find?,
      show (dedupFirstRows sorted).find? (fun r => r.1 == d)
        = sorted.find? (fun r => r.1 == d) from find?_dedupFirstAux sorted d [] rfl,
      ← mem_dates_iff_find?,
      ((hperm.map Prod.fst).mem_iff).symm]
    exact dates_of_inv hrowsI d
  · intro r hr i hi
    have hr1 : r ∈ sorted := (dedupFirstAux_sublist sorted []).subset hr
    have hr2 : r ∈ m.rows := hperm.mem_iff.2 hr1
    exact (hprov r hr2).2 i hi

/-- Witness for the amended C7 at the duplicate-date fixture. -/
theorem dedup_restores_unique_dates_witness :
    alignRel dupList dupPanel0 ∧
    (dupPanel0.dates.Nodup ∧
     (∀ d, d ∈ dupPanel0.dates ↔ unionHas dupList d = true) ∧
     (∀ r ∈ dupPanel0.rows, ∀ i, i < dupList.length →
       r.2.getD i none = none ∨
       ∃ x, x ∈ (dupList.getD i ("", [])).2 ∧ x.1 = r.1 ∧ x.2 = r.2.getD i none)) := by
  have h : alignRel dupList dupPanel0 :=
    ⟨⟨["DUP"], [(700000, [some 1]), (700000, [some 2])]⟩,
     [(700000, [some 1]), (700000, [some 2])],
     by decide, ⟨by decide, by decide⟩, by decide⟩
  exact ⟨h, dedup_restores_unique_dates dupList dupPanel0 h⟩

theorem length_filterMap_rows (l : List (Option Date × Val)) :
    (l.filterMap (fun r =>
      match r.1 with
      | some d => some (d, r.2)
      | none => none)).length
      = (l.filter (fun r => r.1.isSome)).length := by
  induction l with
  | nil => rfl
  | cons r l ih =>
    obtain ⟨od, v⟩ := r
    cases od <;> simp [List.filterMap_cons, List.filter_cons, ih]

/-- C8: row-level parse-failure semantics — for a well-formed two-column
file, the loader keeps exactly the rows whose date parsed (rows with a
failed date are dropped whole; a row with a failed value keeps its date and
the missing marker as value). -/
theorem row_parse_semantics (f : SourceFile) (hcols : 2 ≤ f.cols) :
    ∃ out, loadSeries f = Except.ok out ∧
      (∀ d v, (some d, v) ∈ f.rows → (d, v) ∈ out) ∧
      (∀ d v, (d, v) ∈ out → (some d, v) ∈ f.rows) ∧
      out.length = (f.rows.filter (fun r => r.1.isSome)).length := by
  refine ⟨_, by unfold loadSeries; rw [if_neg (by omega)], ?_, ?_, ?_⟩
  · intro d v h
    exact List.mem_filterMap.2 ⟨(some d, v), h, rfl⟩
  · intro d v h
    obtain ⟨⟨od, v'⟩, hmem, heq⟩ := List.mem_filterMap.1 h
    cases od with
    | none => cases heq
    | some d' =>
      simp only [Option.some.injEq, Prod.mk.injEq] at heq
      obtain ⟨rfl, rfl⟩ := heq
      exact hmem
  · exact length_filterMap_rows f.rows

/-- Witness for C8 at a file with one failing date and one failing value. -/
theorem row_parse_semantics_witness :
    2 ≤ parseFile.cols ∧
    (∃ out, loadSeries parseFile = Except.ok out ∧
      (∀ d v, (some d, v) ∈ parseFile.rows → (d, v) ∈ out) ∧
      (∀ d v, (d, v) ∈ out → (some d, v) ∈ parseFile.rows) ∧
      out.length = (parseFile.rows.filter (fun r => r.1.isSome)).length) :=
  ⟨by decide, row_parse_semantics parseFile (by decide)⟩

theorem loadBatch_mem_ok {files : List SourceFile} {c : String} {s : Series}
    (h : (c, s) ∈ (loadBatch files).1) :
    ∃ f ∈ files, f.sid = c ∧ loadSeries f = Except.ok s := by
  induction files with
  | nil => cases h
  | cons f fs ih =>
    simp only [loadBatch] at h
    cases hf : loadSeries f with
    | ok s' =>
      rw [hf] at h
      simp only [List.mem_cons, Prod.mk.injEq] at h
      rcases h with ⟨hc, hs⟩ | hmem
      · exact ⟨f, List.mem_cons_self f fs, hc.symm ▸ rfl, by rw [hf, hs]⟩
      · obtain ⟨g, hg, hgs⟩ := ih hmem
        exact ⟨g, List.mem_cons_of_mem f hg, hgs⟩
    | error e =>
      rw [hf] at h
      obtain ⟨g, hg, hgs⟩ := ih h
      exact ⟨g, List.mem_cons_of_mem f hg, hgs⟩

theorem loadBatch_ok_mem {files : List SourceFile} {f : SourceFile} {s : Series}
    (hf : f ∈ files) (hok : loadSeries f = Except.ok s) :
    (f.sid, s) ∈ (loadBatch files).1 := by
  induction files with
  | nil => cases hf
  | cons g fs ih =>
    rcases List.mem_cons.1 hf with rfl | hmem
    · simp only [loadBatch, hok]
      exact List.mem_cons_self _ _
    · simp only [loadBatch]
      cases hg : loadSeries g with
      | ok s' => exact List.mem_cons_of_mem _ (ih hmem)
      | error e => exact ih hmem

theorem loadBatch_err_mem {files : List SourceFile} {f : SourceFile} {e : LoadErr}
    (hf : f ∈ files) (herr : loadSeries f = Except.error e) :
    (f.sid, e) ∈ (loadBatch files).2 := by
  induction files with
  | nil => cases hf
  | cons g fs ih =>
    rcases List.mem_cons.1 hf with rfl | hmem
    · simp only [loadBatch, herr]
      exact List.mem_cons_self _ _
    · simp only [loadBatch]
      cases hg : loadSeries g with
      | ok s' => exact ih hmem
      | error e' => exact List.mem_cons_of_mem _ (ih hmem)

theorem nodup_sid_inj {files : List SourceFile} (hnd : (files.map SourceFile.sid).Nodup)
    {f g : SourceFile} (hf : f ∈ files) (hg : g ∈ files) (h : f.sid = g.sid) : f = g := by
  induction files with
  | nil => cases hf
  | cons a fs ih =>
    rw [List.map_cons, List.nodup_cons] at hnd
    rcases List.mem_cons.1 hf with rfl | hf'
    · rcases List.mem_cons.1 hg with rfl | hg'
      · rfl
      · exfalso
        apply hnd.1
        rw [h]
        exact List.mem_map.2 ⟨g, hg', rfl⟩
    · rcases List.mem_cons.1 hg with rfl | hg'
      · exfalso
        apply hnd.1
        rw [← h]
        exact List.mem_map.2 ⟨f, hf', rfl⟩
      · exact ih hnd.2 hf' hg'

/-- C9: Malformed-source isolation — a file with fewer than 2 columns raises
the per-file error carrying its identifier and the cause, it is reported in
the error list and excluded from the loaded series and from the merged
panel's columns, while every well-formed file of the batch still appears as
a column of the merged panel. -/
theorem malformed_source_isolation
    (files : List SourceFile) (hnd : (files.map SourceFile.sid).Nodup)
    (f : SourceFile) (hf : f ∈ files) (hbad : f.cols < 2)
    (g : SourceFile) (hg : g ∈ files) (hgood : 2 ≤ g.cols) :
    loadSeries f = Except.error (.malformed f.sid f.cols) ∧
    (f.sid, LoadErr.malformed f.sid f.cols) ∈ (loadBatch files).2 ∧
    (∀ s, (f.sid, s) ∉ (loadBatch files).1) ∧
    ∃ P, align (loadBatch files).1 = some P ∧ f.sid ∉ P.cols ∧
      ∀ k, k ∈ files → 2 ≤ k.cols → k.sid ∈ P.cols := by
  have herr : loadSeries f = Except.error (.malformed f.sid f.cols) := by
    unfold loadSeries
    rw [if_pos hbad]
  have hnotin : ∀ s, (f.sid, s) ∉ (loadBatch files).1 := by
    intro s hs
    obtain ⟨f', hf', hsid, hok⟩ := loadBatch_mem_ok hs
    have : f' = f := nodup_sid_inj hnd hf' hf hsid
    rw [this, herr] at hok
    cases hok
  have hok_of_good : ∀ k : SourceFile, 2 ≤ k.cols →
      loadSeries k = Except.ok (k.rows.filterMap (fun r =>
        match r.1 with
        | some d => some (d, r.2)
        | none => none)) := by
    intro k hk
    unfold loadSeries
    rw [if_neg (by omega)]
  have hgmem : (g.sid, _) ∈ (loadBatch files).1 := loadBatch_ok_mem hg (hok_of_good g hgood)
  have hne : (loadBatch files).1 ≠ [] := List.ne_nil_of_mem hgmem
  obtain ⟨q, rest, hqr⟩ : ∃ q rest, (loadBatch files).1 = q :: rest := by
    cases hL : (loadBatch files).1 with
    | nil => exact absurd hL hne
    | cons q rest => exact ⟨q, rest, rfl⟩
  obtain ⟨P, hP, hcols, _, _⟩ := align_spec q rest
  refine ⟨herr, loadBatch_err_mem hf herr, hnotin, P, by rw [hqr]; exact hP, ?_, ?_⟩
  · intro hmem
    rw [hcols, ← hqr] at hmem
    obtain ⟨⟨c, s⟩, hcs, hcs2⟩ := List.mem_map.1 hmem
    exact hnotin s (by rw [show c = f.sid from hcs2] at hcs; exact hcs)
  · intro k hk hkcols
    rw [hcols, ← hqr]
    exact List.mem_map.2 ⟨(k.sid, _), loadBatch_ok_mem hk (hok_of_good k hkcols), rfl⟩

/-- Witness for C9 at a batch of one malformed and one well-formed file. -/
theorem malformed_source_isolation_witness :
    ((mixedBatch.map SourceFile.sid).Nodup ∧ badFile ∈ mixedBatch ∧ badFile.cols < 2 ∧
      goodFile ∈ mixedBatch ∧ 2 ≤ goodFile.cols) ∧
    (loadSeries badFile = Except.error (.malformed badFile.sid badFile.cols) ∧
    (badFile.sid, LoadErr.malformed badFile.sid badFile.cols) ∈ (loadBatch mixedBatch).2 ∧
    (∀ s, (badFile.sid, s) ∉ (loadBatch mixedBatch).1) ∧
    ∃ P, align (loadBatch mixedBatch).1 = some P ∧ badFile.sid ∉ P.cols ∧
      ∀ k, k ∈ mixedBatch → 2 ≤ k.cols → k.sid ∈ P.cols) :=
  ⟨⟨by decide, by decide, by decide, by decide, by decide⟩,
    malformed_source_isolation mixedBatch (by decide) badFile (by decide) (by decide)
      goodFile (by decide) (by decide)⟩

theorem getD_map_lt {α β : Type} (f : α → β) (l : List α) (i : Nat) (hi : i < l.length)
    (d : β) (e : α) : (l.map f).getD i d = f (l.getD i e) := by
  rw [List.getD_eq_getElem _ _ (by simpa using hi), List.getD_eq_getElem _ _ hi,
    List.getElem_map]

/-- C3: pruning happens on the post-cutoff panel — every column surviving the
pruning of the post-cutoff panel has a missing-fraction strictly below the
threshold, both measured on the pruned panel itself and traced back to a
column of the original panel whose fraction over the post-cutoff rows is
below the threshold. -/
theorem pruning_post_cutoff (p : Panel) (t : ℚ) (j' : Nat)
    (hj : j' < (prune t (cutoff p)).cols.length) :
    missFrac (prune t (cutoff p)) j' < t ∧
    ∃ j, j < p.cols.length ∧ (prune t (cutoff p)).cols.getD j' "" = p.cols.getD j "" ∧
      missFrac (cutoff p) j < t := by
  have hj' : j' < (pruneIdxs t (cutoff p)).length := by
    simpa [prune] using hj
  have hjmem : (pruneIdxs t (cutoff p)).getD j' 0 ∈ pruneIdxs t (cutoff p) := by
    rw [List.getD_eq_getElem _ _ hj']
    exact List.getElem_mem hj'
  have hjfacts := List.mem_filter.1 hjmem
  have hjlt : (pruneIdxs t (cutoff p)).getD j' 0 < p.cols.length :=
    List.mem_range.1 hjfacts.1
  have hfrac : missFrac (cutoff p) ((pruneIdxs t (cutoff p)).getD j' 0) < t := by
    have h2 := hjfacts.2
    unfold pruneKeep at h2
    rw [Bool.and_eq_true] at h2
    exact of_decide_eq_true h2.2
  have hfraceq : missFrac (prune t (cutoff p)) j'
      = missFrac (cutoff p) ((pruneIdxs t (cutoff p)).getD j' 0) := by
    unfold missFrac prune
    rw [List.length_map, List.countP_map]
    congr 1
    refine congrArg _ (List.countP_congr ?_)
    intro r _
    show (((pruneIdxs t (cutoff p)).map (fun j => r.2.getD j none)).getD j' none).isNone
        = true ↔ _
    rw [getD_map_lt _ _ _ hj' none 0]
  refine ⟨hfraceq ▸ hfrac, (pruneIdxs t (cutoff p)).getD j' 0, hjlt, ?_, hfrac⟩
  show ((pruneIdxs t (cutoff p)).map (fun j => (cutoff p).cols.getD j "")).getD j' ""
      = p.cols.getD _ ""
  rw [getD_map_lt _ _ _ hj' "" 0]
  rfl

/-- Witness for C3 at a concrete post-cutoff panel with one sparse and one
dense column. -/
theorem pruning_post_cutoff_witness :
    0 < (prune threshold (cutoff prunePanel)).cols.length ∧
    (missFrac (prune threshold (cutoff prunePanel)) 0 < threshold ∧
    ∃ j, j < prunePanel.cols.length ∧
      (prune threshold (cutoff prunePanel)).cols.getD 0 "" = prunePanel.cols.getD j "" ∧
      missFrac (cutoff prunePanel) j < threshold) :=
  ⟨by decide, pruning_post_cutoff prunePanel threshold 0 (by decide)⟩

theorem getD_map_range {β : Type} (f : Nat → β) (n j : Nat) (hj : j < n) (d : β) :
    ((List.range n).map f).getD j d = f j := by
  rw [getD_map_lt f _ j (by simpa using hj) d 0,
    List.getD_eq_getElem _ _ (by simpa using hj), List.getElem_range]

theorem ffillRows_length (mask : Nat → Bool) (n : Nat) :
    ∀ (rows : List Row) (last : List Val), (ffillRows mask n last rows).length = rows.length := by
  intro rows
  induction rows with
  | nil => intro last; rfl
  | cons r rs ih =>
    intro last
    simp only [ffillRows, List.length_cons, ih]

theorem ffillRows_cell_unmasked (mask : Nat → Bool) (n j : Nat) (hj : j < n)
    (hm : mask j = false) :
    ∀ (rows : List Row) (last : List Val) (k : Nat), k < rows.length →
      ((ffillRows mask n last rows).getD k (0, [])).2.getD j none
        = (rows.getD k (0, [])).2.getD j none := by
  intro rows
  induction rows with
  | nil => intro last k hk; cases hk
  | cons r rs ih =>
    intro last k hk
    cases k with
    | zero =>
      simp only [ffillRows, List.getD_cons_zero]
      rw [getD_map_range _ n j hj]
      cases hv : r.2.getD j none with
      | some v => rfl
      | none => rw [hm]; rfl
    | succ k' =>
      simp only [ffillRows, List.getD_cons_succ]
      exact ih _ k' (Nat.lt_of_succ_lt_succ hk)

theorem ffillRows_cell_masked (mask : Nat → Bool) (n j : Nat) (hj : j < n)
    (hm : mask j = true) :
    ∀ (rows : List Row) (last : List Val) (k : Nat), k < rows.length →
      ((last.getD j none).isSome = true ∨
        ∃ i, i ≤ k ∧ ((rows.getD i (0, [])).2.getD j none).isSome = true) →
      (((ffillRows mask n last rows).getD k (0, [])).2.getD j none).isSome = true := by
  intro rows
  induction rows with
  | nil => intro last k hk _; cases hk
  | cons r rs ih =>
    intro last k hk hsrc
    have hnr : ((List.range n).map (fun j => match r.2.getD j none with
        | some v => some v
        | none => if mask j then last.getD j none else none)).getD j none
        = (match r.2.getD j none with
          | some v => some v
          | none => last.getD j none) := by
      rw [getD_map_range _ n j hj]
      cases r.2.getD j none with
      | some v => rfl
      | none => rw [hm]; rfl
    cases k with
    | zero =>
      simp only [ffillRows, List.getD_cons_zero]
      rw [hnr]
      cases hv : r.2.getD j none with
      | some v => rfl
      | none =>
        rcases hsrc with hlast | ⟨i, hi, hsome⟩
        · exact hlast
        · have hi0 : i = 0 := Nat.le_zero.1 hi
          rw [hi0, List.getD_cons_zero, hv] at hsome
          cases hsome
    | succ k' =>
      simp only [ffillRows, List.getD_cons_succ]
      apply ih _ k' (Nat.lt_of_succ_lt_succ hk)
      rcases hsrc with hlast | ⟨i, hi, hsome⟩
      · left
        rw [hnr]
        cases hv : r.2.getD j none with
        | some v => rfl
        | none => exact hlast
      · cases i with
        | zero =>
          left
          rw [hnr]
          rw [List.getD_cons_zero] at hsome
          cases hv : r.2.getD j none with
          | some v => rfl
          | none => rw [hv] at hsome; cases hsome
        | succ i' =>
          right
          refine ⟨i', Nat.succ_le_succ_iff.1 hi, ?_⟩
          rw [List.getD_cons_succ] at hsome
          exact hsome

/-- C4: class-specific forward-fill — after the two fill passes, every
yield-curve and macro-class column (that is, every column other than the
reserved `"USREC"`) is non-missing at every row index at or after the index
of its first non-missing observation, while the `"USREC"` column is left
untouched by both passes. -/
theorem class_forward_fill (p : Panel) (j : Nat) (hj : j < p.cols.length) :
    ((p.cols.getD j "" ≠ "USREC") →
      ∀ i k, i ≤ k → k < p.rows.length →
        ((p.rows.getD i (0, [])).2.getD j none).isSome = true →
        (((fillStep p).rows.getD k (0, [])).2.getD j none).isSome = true) ∧
    ((p.cols.getD j "" = "USREC") →
      ∀ k, k < p.rows.length →
        ((fillStep p).rows.getD k (0, [])).2.getD j none
          = (p.rows.getD k (0, [])).2.getD j none) := by
  constructor
  · intro hne i k hik hk hsome
    unfold fillStep ffillCols
    by_cases hy : isYield (p.cols.getD j "") = true
    · have hmask2 : econMask p j = false := by
        unfold econMask
        rw [hy]
        rfl
      rw [ffillRows_cell_unmasked (econMask p) _ j hj hmask2 _ _ k
        (by rw [ffillRows_length]; exact hk)]
      apply ffillRows_cell_masked (yieldMask p) _ j hj hy _ _ k hk
      exact Or.inr ⟨i, hik, hsome⟩
    · have hy' : isYield (p.cols.getD j "") = false := Bool.eq_false_iff.2 hy
      have hmask1 : yieldMask p j = false := hy'
      have hmask2 : econMask p j = true := by
        unfold econMask
        rw [hy']
        simp only [Bool.not_false, Bool.true_and, bne_iff_ne, ne_eq]
        exact hne
      apply ffillRows_cell_masked (econMask p) _ j hj hmask2 _ _ k
        (by rw [ffillRows_length]; exact hk)
      refine Or.inr ⟨i, hik, ?_⟩
      rw [ffillRows_cell_unmasked (yieldMask p) _ j hj hmask1 _ _ i
        (Nat.lt_of_le_of_lt hik hk)]
      exact hsome
  · intro he k hk
    have hmask1 : yieldMask p j = false := by
      unfold yieldMask
      rw [he]
      rfl
    have hmask2 : econMask p j = false := by
      unfold econMask
      rw [he]
      rfl
    unfold fillStep ffillCols
    rw [ffillRows_cell_unmasked (econMask p) _ j hj hmask2 _ _ k
        (by rw [ffillRows_length]; exact hk),
      ffillRows_cell_unmasked (yieldMask p) _ j hj hmask1 _ _ k hk]

/-- Witness for C4 at the three-class fixture panel, macro column. -/
theorem class_forward_fill_witness :
    1 < fillPanel.cols.length ∧
    (((fillPanel.cols.getD 1 "" ≠ "USREC") →
      ∀ i k, i ≤ k → k < fillPanel.rows.length →
        ((fillPanel.rows.getD i (0, [])).2.getD 1 none).isSome = true →
        (((fillStep fillPanel).rows.getD k (0, [])).2.getD 1 none).isSome = true) ∧
    ((fillPanel.cols.getD 1 "" = "USREC") →
      ∀ k, k < fillPanel.rows.length →
        ((fillStep fillPanel).rows.getD k (0, [])).2.getD 1 none
          = (fillPanel.rows.getD k (0, [])).2.getD 1 none)) :=
  ⟨by decide, class_forward_fill fillPanel 1 (by decide)⟩

theorem contains_of_getD {l : List String} {j : Nat} (hj : j < l.length) {c : String}
    (hc : l.getD j "" = c) : l.contains c = true := by
  have hmem : c ∈ l := by
    rw [← hc, List.getD_eq_getElem _ _ hj]
    exact List.getElem_mem hj
  exact List.elem_iff.2 hmem

/-- C5 counterexample: the normalization step does not clamp values — a
panel whose `"USREC"` column holds `2` still holds `2` (neither `0` nor
`1`) after the normalization step. -/
theorem usrec_not_binary_counterexample :
    ((usrecStep usrecPanel).rows.getD 0 (0, [])).2.getD 0 none = some 2 ∧
    (some (2 : ℚ) : Val) ≠ some 0 ∧ (some (2 : ℚ) : Val) ≠ some 1 :=
  ⟨by decide, by decide, by decide⟩

/-- C5 amended: recession-indicator normalization — when `"USREC"` survived
as a column, after normalization every cell of that column is a non-missing
integer, namely the integer truncation of the original value with missing
replaced by zero; in particular original cells that are missing, `0` or `1`
become `0` or `1`, but other values are carried over unclamped. -/
theorem usrec_normalization (p : Panel) (j : Nat) (hj : j < p.cols.length)
    (hcol : p.cols.getD j "" = "USREC") (k : Nat) (hk : k < p.rows.length) :
    ∃ z : ℤ, ((usrecStep p).rows.getD k (0, [])).2.getD j none = some (z : ℚ) ∧
      z = ratTrunc (((p.rows.getD k (0, [])).2.getD j none).getD 0) ∧
      (((p.rows.getD k (0, [])).2.getD j none = none ∨
        (p.rows.getD k (0, [])).2.getD j none = some 0 ∨
        (p.rows.getD k (0, [])).2.getD j none = some 1) →
        (((usrecStep p).rows.getD k (0, [])).2.getD j none = some 0 ∨
         ((usrecStep p).rows.getD k (0, [])).2.getD j none = some 1)) := by
  have hcont : p.cols.contains "USREC" = true := contains_of_getD hj hcol
  have hbeq : (p.cols.getD j "" == "USREC") = true := beq_iff_eq.2 hcol
  have hcell : ((usrecStep p).rows.getD k (0, [])).2.getD j none
      = some ((ratTrunc (((p.rows.getD k (0, [])).2.getD j none).getD 0) : ℤ) : ℚ) := by
    unfold usrecStep
    rw [if_pos hcont]
    show ((p.rows.map _).getD k (0, [])).2.getD j none = _
    rw [getD_map_lt _ _ _ hk (0, []) (0, [])]
    show ((List.range p.cols.length).map _).getD j none = _
    rw [getD_map_range _ _ j hj, hbeq]
    rfl
  refine ⟨_, hcell, rfl, ?_⟩
  intro hold
  rcases hold with h0 | h0 | h0
  · rw [hcell, h0]
    left
    decide
  · rw [hcell, h0]
    left
    decide
  · rw [hcell, h0]
    right
    decide

/-- Witness for the amended C5 at the fixture panel. -/
theorem usrec_normalization_witness :
    (0 < usrecPanel.cols.length ∧ usrecPanel.cols.getD 0 "" = "USREC" ∧
      0 < usrecPanel.rows.length) ∧
    (∃ z : ℤ, ((usrecStep usrecPanel).rows.getD 0 (0, [])).2.getD 0 none = some (z : ℚ) ∧
      z = ratTrunc (((usrecPanel.rows.getD 0 (0, [])).2.getD 0 none).getD 0) ∧
      (((usrecPanel.rows.getD 0 (0, [])).2.getD 0 none = none ∨
        (usrecPanel.rows.getD 0 (0, [])).2.getD 0 none = some 0 ∨
        (usrecPanel.rows.getD 0 (0, [])).2.getD 0 none = some 1) →
        (((usrecStep usrecPanel).rows.getD 0 (0, [])).2.getD 0 none = some 0 ∨
         ((usrecStep usrecPanel).rows.getD 0 (0, [])).2.getD 0 none = some 1))) :=
  ⟨⟨by decide, by decide, by decide⟩,
    usrec_normalization usrecPanel 0 (by decide) (by decide) 0 (by decide)⟩

theorem daysInMonth_lt (mi : Nat) : daysInMonth mi < 32 := by
  unfold daysInMonth
  show (if mi % 12 + 1 = 2 then (if isLeap (mi / 12) then 29 else 28)
    else if mi % 12 + 1 = 4 ∨ mi % 12 + 1 = 6 ∨ mi % 12 + 1 = 9 ∨ mi % 12 + 1 = 11
      then 30 else 31) < 32
  split
  · split <;> omega
  · split <;> omega

theorem monthOf_monthEnd (mi : Nat) : monthOf (monthEnd mi) = mi := by
  unfold monthOf monthEnd
  have := daysInMonth_lt mi
  omega

theorem monthEnd_inj {x y : Nat} (h : monthEnd x = monthEnd y) : x = y := by
  have hx := monthOf_monthEnd x
  have hy := monthOf_monthEnd y
  rw [← hx, ← hy, h]

theorem find?_congr {α : Type} {p q : α → Bool} (l : List α) (h : ∀ a ∈ l, p a = q a) :
    l.find? p = l.find? q := by
  induction l with
  | nil => rfl
  | cons a l ih =>
    have ha := h a (List.mem_cons_self a l)
    cases hq : q a with
    | true =>
      rw [List.find?_cons_of_pos _ (ha.trans hq), List.find?_cons_of_pos _ hq]
    | false =>
      rw [List.find?_cons_of_neg _ (by simp [ha, hq]), List.find?_cons_of_neg _ (by simp [hq])]
      exact ih (fun a ha' => h a (List.mem_cons_of_mem _ ha'))

theorem find?_beq_self {l : List Nat} {a : Nat} (h : a ∈ l) :
    l.find? (fun x => x == a) = some a := by
  induction l with
  | nil => cases h
  | cons b l ih =>
    cases hb : (b == a) with
    | true =>
      have h1 : (b :: l).find? (fun x => x == a) = some b := List.find?_cons_of_pos _ hb
      rw [h1]
      have hba : b = a := by simpa using hb
      rw [hba]
    | false =>
      have h1 : (b :: l).find? (fun x => x == a) = l.find? (fun x => x == a) :=
        List.find?_cons_of_neg _ (by simp [hb])
      rw [h1]
      apply ih
      rcases List.mem_cons.1 h with rfl | h'
      · simp at hb
      · exact h'

theorem mem_monthRange {lo hi mi : Nat} (h1 : lo ≤ mi) (h2 : mi ≤ hi) :
    mi ∈ monthRange lo hi := by
  unfold monthRange
  refine List.mem_map.2 ⟨mi - lo, ?_, by omega⟩
  rw [List.mem_range]
  omega

theorem find?_monthRows (lo hi mi : Nat) (h1 : lo ≤ mi) (h2 : mi ≤ hi)
    (g : Nat → List Val) :
    ((monthRange lo hi).map (fun mi' => ((monthEnd mi' : Date), g mi'))).find?
      (fun row => row.1 == monthEnd mi) = some (monthEnd mi, g mi) := by
  rw [List.find?_map]
  have hcomp : ((fun row : Row => row.1 == monthEnd mi)
      ∘ fun mi' => ((monthEnd mi' : Date), g mi'))
      = fun mi' => monthEnd mi' == monthEnd mi := rfl
  rw [hcomp]
  have hpt : ∀ mi' ∈ monthRange lo hi, (monthEnd mi' == monthEnd mi) = (mi' == mi) := by
    intro mi' _
    cases he : (mi' == mi) with
    | true =>
      simp only [beq_iff_eq] at he ⊢
      rw [he]
    | false =>
      simp only [beq_eq_false_iff_ne, ne_eq] at he ⊢
      intro hc
      exact he (monthEnd_inj hc)
  rw [find?_congr _ hpt, find?_beq_self (mem_monthRange h1 h2)]
  rfl

theorem sorted_key_inj {l : List Row} (hs : l.Pairwise (fun a b => a.1 < b.1))
    {x y : Row} (hx : x ∈ l) (hy : y ∈ l) (h : x.1 = y.1) : x = y := by
  induction l with
  | nil => cases hx
  | cons a l ih =>
    rw [List.pairwise_cons] at hs
    rcases List.mem_cons.1 hx with rfl | hx'
    · rcases List.mem_cons.1 hy with rfl | hy'
      · rfl
      · exact absurd (hs.1 y hy') (by rw [h]; exact lt_irrefl _)
    · rcases List.mem_cons.1 hy with rfl | hy'
      · exact absurd (hs.1 x hx') (by rw [h]; exact lt_irrefl _)
      · exact ih hs.2 hx' hy'

theorem rev_find?_sorted : ∀ {l : List Row}, l.Pairwise (fun a b => a.1 < b.1) →
    ∀ (q : Row → Bool) (r : Row),
      (l.reverse.find? q = some r ↔
        (r ∈ l ∧ q r = true ∧ ∀ r' ∈ l, q r' = true → r'.1 ≤ r.1)) := by
  intro l
  induction l with
  | nil =>
    intro _ q r
    simp
  | cons a l ih =>
    intro hs q r
    rw [List.pairwise_cons] at hs
    rw [List.reverse_cons, List.find?_append]
    cases hfind : l.reverse.find? q with
    | some m =>
      obtain ⟨hmem, hq, hmax⟩ := (ih hs.2 q m).1 hfind
      show some m = some r ↔ _
      constructor
      · intro heq
        injection heq with heq
        subst heq
        refine ⟨List.mem_cons_of_mem a hmem, hq, ?_⟩
        intro r' hr' hq'
        rcases List.mem_cons.1 hr' with rfl | hr''
        · exact Nat.le_of_lt (hs.1 m hmem)
        · exact hmax r' hr'' hq'
      · rintro ⟨hmemr, hqr, hmaxr⟩
        have hrl : r ∈ l := by
          rcases List.mem_cons.1 hmemr with rfl | h'
          · exfalso
            have h1 : m.1 ≤ r.1 := hmaxr m (List.mem_cons_of_mem _ hmem) hq
            exact absurd (hs.1 m hmem) (Nat.not_lt.2 h1)
          · exact h'
        have h1 : m.1 ≤ r.1 := hmaxr m (List.mem_cons_of_mem a hmem) hq
        have h2 : r.1 ≤ m.1 := hmax r hrl hqr
        rw [sorted_key_inj hs.2 hmem hrl (Nat.le_antisymm h1 h2)]
    | none =>
      have hnone : ∀ x ∈ l, q x = false := by
        intro x hx
        exact Bool.eq_false_iff.2 (List.find?_eq_none.1 hfind x (List.mem_reverse.2 hx))
      rw [Option.none_or]
      cases hqa : q a with
      | true =>
        rw [List.find?_cons_of_pos _ hqa]
        show some a = some r ↔ _
        constructor
        · intro heq
          injection heq with heq
          subst heq
          refine ⟨List.mem_cons_self _ _, hqa, ?_⟩
          intro r' hr' hq'
          rcases List.mem_cons.1 hr' with rfl | hr''
          · exact Nat.le_refl _
          · rw [hnone r' hr''] at hq'
            cases hq'
        · rintro ⟨hmemr, hqr, _⟩
          rcases List.mem_cons.1 hmemr with rfl | hr''
          · rfl
          · rw [hnone r hr''] at hqr
            cases hqr
      | false =>
        rw [List.find?_cons_of_neg _ (by simp [hqa])]
        show (none : Option Row) = some r ↔ _
        constructor
        · intro heq
          cases heq
        · rintro ⟨hmemr, hqr, _⟩
          rcases List.mem_cons.1 hmemr with rfl | hr''
          · rw [hqa] at hqr
            cases hqr
          · rw [hnone r hr''] at hqr
            cases hqr

theorem foldl_min_bounded : ∀ (rs : List Row) (a : Date), (∀ b ∈ rs, a ≤ b.1) →
    rs.foldl (fun x b => min x b.1) a = a := by
  intro rs
  induction rs with
  | nil => intro a _; rfl
  | cons b rs ih =>
    intro a hb
    show rs.foldl _ (min a b.1) = a
    rw [min_eq_left (hb b (List.mem_cons_self b rs))]
    exact ih a (fun c hc => hb c (List.mem_cons_of_mem b hc))

theorem foldl_max_sorted : ∀ (rs : List Row) (a : Date),
    rs.Pairwise (fun x y => x.1 < y.1) → (∀ b ∈ rs, a ≤ b.1) →
    rs.foldl (fun x b => max x b.1) a = lastDate rs a := by
  intro rs
  induction rs with
  | nil => intro a _ _; rfl
  | cons b rs ih =>
    intro a hs hb
    rw [List.pairwise_cons] at hs
    show rs.foldl _ (max a b.1) = lastDate rs b.1
    rw [max_eq_right (hb b (List.mem_cons_self b rs))]
    exact ih b.1 hs.2 (fun c hc => Nat.le_of_lt (hs.1 c hc))

theorem lastDate_ge : ∀ (rs : List Row) (a : Date),
    rs.Pairwise (fun x y => x.1 < y.1) → (∀ b ∈ rs, a ≤ b.1) →
    a ≤ lastDate rs a ∧ ∀ b ∈ rs, b.1 ≤ lastDate rs a := by
  intro rs
  induction rs with
  | nil =>
    intro a _ _
    exact ⟨Nat.le_refl a, fun b hb => absurd hb (List.not_mem_nil b)⟩
  | cons c rs ih =>
    intro a hs hbound
    rw [List.pairwise_cons] at hs
    have hc : ∀ b ∈ rs, c.1 ≤ b.1 := fun b hb => Nat.le_of_lt (hs.1 b hb)
    obtain ⟨h1, h2⟩ := ih c.1 hs.2 hc
    refine ⟨Nat.le_trans (hbound c (List.mem_cons_self c rs)) h1, ?_⟩
    intro b hb
    rcases List.mem_cons.1 hb with rfl | hb'
    · exact h1
    · exact h2 b hb'

theorem resample_cons {p : Panel} {r : Row} {rs : List Row} (hrr : p.rows = r :: rs) :
    resample p = ⟨p.cols, resampleRows r rs p.cols.length⟩ := by
  unfold resample
  rw [hrr]

theorem resampleRows_sorted (r : Row) (rs : List Row)
    (hs : rs.Pairwise (fun x y => x.1 < y.1)) (hb : ∀ b ∈ rs, r.1 ≤ b.1) (n : Nat) :
    resampleRows r rs n
      = (monthRange (monthOf r.1) (monthOf (lastDate rs r.1))).map (fun mi =>
          (monthEnd mi, (List.range n).map (fun j => lastObsInMonth (r :: rs) mi j))) := by
  unfold resampleRows
  rw [foldl_min_bounded rs r.1 hb, foldl_max_sorted rs r.1 hs hb]

theorem lastObs_some_iff {rows : List Row} (hs : rows.Pairwise (fun a b => a.1 < b.1))
    (mi j : Nat) (v : ℚ) :
    lastObsInMonth rows mi j = some v ↔
      ∃ q, q ∈ rows ∧ monthOf q.1 = mi ∧ q.2.getD j none = some v ∧
        ∀ q', q' ∈ rows → monthOf q'.1 = mi → q.1 < q'.1 → q'.2.getD j none = none := by
  unfold lastObsInMonth
  have hsf : (rows.filter (fun r => monthOf r.1 == mi)).Pairwise (fun a b => a.1 < b.1) :=
    List.Pairwise.filter _ hs
  cases hfind : (rows.filter (fun r => monthOf r.1 == mi)).reverse.find?
      (fun r => (r.2.getD j none).isSome) with
  | some m =>
    obtain ⟨hmem, hq, hmax⟩ := (rev_find?_sorted hsf _ m).1 hfind
    have hmemr := List.mem_filter.1 hmem
    constructor
    · intro hv
      refine ⟨m, hmemr.1, by simpa using hmemr.2, hv, ?_⟩
      intro q' hq' hmi' hlt
      cases hv' : q'.2.getD j none with
      | none => rfl
      | some w =>
        exfalso
        have hq'f : q' ∈ rows.filter (fun r => monthOf r.1 == mi) :=
          List.mem_filter.2 ⟨hq', by simpa using hmi'⟩
        have hle : q'.1 ≤ m.1 := hmax q' hq'f (by rw [hv']; rfl)
        exact absurd hlt (Nat.not_lt.2 hle)
    · rintro ⟨q, hqmem, hmi', hv, hlater⟩
      have hqf : q ∈ rows.filter (fun r => monthOf r.1 == mi) :=
        List.mem_filter.2 ⟨hqmem, by simpa using hmi'⟩
      have h1 : q.1 ≤ m.1 := hmax q hqf (by rw [hv]; rfl)
      have h2 : m.1 ≤ q.1 := by
        rcases Nat.lt_or_ge q.1 m.1 with hlt | hge
        · exfalso
          have hmnone := hlater m hmemr.1 (by simpa using hmemr.2) hlt
          rw [hmnone] at hq
          cases hq
        · exact hge
      have hmq : m = q := sorted_key_inj hsf hmem hqf (Nat.le_antisymm h2 h1)
      rw [hmq]
      show q.2.getD j none = some v
      exact hv
  | none =>
    have hall := List.find?_eq_none.1 hfind
    constructor
    · intro h
      cases h
    · rintro ⟨q, hqmem, hmi', hv, _⟩
      exfalso
      have hqf : q ∈ (rows.filter (fun r => monthOf r.1 == mi)).reverse :=
        List.mem_reverse.2 (List.mem_filter.2 ⟨hqmem, by simpa using hmi'⟩)
      exact hall q hqf (by rw [hv]; rfl)

theorem lastObs_none_iff {rows : List Row} (mi j : Nat) :
    lastObsInMonth rows mi j = none ↔
      ∀ q, q ∈ rows → monthOf q.1 = mi → q.2.getD j none = none := by
  unfold lastObsInMonth
  cases hfind : (rows.filter (fun r => monthOf r.1 == mi)).reverse.find?
      (fun r => (r.2.getD j none).isSome) with
  | some m =>
    have hq := List.find?_some hfind
    have hmem := List.mem_filter.1 (List.mem_reverse.1 (List.mem_of_find?_eq_some hfind))
    constructor
    · intro h
      have h' : m.2.getD j none = none := h
      rw [h'] at hq
      cases hq
    · intro hall
      exact hall m hmem.1 (by simpa using hmem.2)
  | none =>
    constructor
    · intro _ q hqmem hmi'
      cases hv : q.2.getD j none with
      | none => rfl
      | some w =>
        exfalso
        have hqf : q ∈ (rows.filter (fun r => monthOf r.1 == mi)).reverse :=
          List.mem_reverse.2 (List.mem_filter.2 ⟨hqmem, by simpa using hmi'⟩)
        exact List.find?_eq_none.1 hfind q hqf (by rw [hv]; rfl)
    · intro _
      rfl

/-- C1: Resampler correctness — for a sorted non-empty aligned panel, the
resampled date index is exactly the month-end timestamps of the consecutive
months spanning the minimum and maximum input dates (months with no rows
included), and each cell is `some v` exactly when `v` is the last
non-missing observation of that column within the month, and missing
exactly when the month holds no non-missing observation for the column. -/
theorem resampler_last_obs (p : Panel) (r : Row) (rs : List Row)
    (hrr : p.rows = r :: rs)
    (hsorted : (p.rows.map Prod.fst).Pairwise (fun a b => a < b)) :
    (resample p).dates
      = (monthRange (monthOf r.1) (monthOf (lastDate rs r.1))).map monthEnd ∧
    (∀ q, q ∈ p.rows → r.1 ≤ q.1 ∧ q.1 ≤ lastDate rs r.1) ∧
    (∀ j, j < p.cols.length → ∀ mi, monthOf r.1 ≤ mi → mi ≤ monthOf (lastDate rs r.1) →
      (∀ v, (resample p).cell (monthEnd mi) j = some v ↔
        ∃ q, q ∈ p.rows ∧ monthOf q.1 = mi ∧ q.2.getD j none = some v ∧
          ∀ q', q' ∈ p.rows → monthOf q'.1 = mi → q.1 < q'.1 → q'.2.getD j none = none) ∧
      ((resample p).cell (monthEnd mi) j = none ↔
        ∀ q, q ∈ p.rows → monthOf q.1 = mi → q.2.getD j none = none)) := by
  have hs : p.rows.Pairwise (fun a b => a.1 < b.1) := List.pairwise_map.1 hsorted
  rw [hrr] at hs
  obtain ⟨hhead, htail⟩ := List.pairwise_cons.1 hs
  have hb : ∀ b ∈ rs, r.1 ≤ b.1 := fun b hb' => Nat.le_of_lt (hhead b hb')
  have hres : resample p
      = ⟨p.cols, (monthRange (monthOf r.1) (monthOf (lastDate rs r.1))).map
          (fun mi => (monthEnd mi, (List.range p.cols.length).map
            (fun j => lastObsInMonth (r :: rs) mi j)))⟩ := by
    rw [resample_cons hrr, resampleRows_sorted r rs htail hb]
  refine ⟨?_, ?_, ?_⟩
  · rw [hres]
    show ((monthRange _ _).map _).map Prod.fst = _
    rw [List.map_map]
    rfl
  · intro q hq
    rw [hrr] at hq
    obtain ⟨h1, h2⟩ := lastDate_ge rs r.1 htail hb
    rcases List.mem_cons.1 hq with rfl | hq'
    · exact ⟨Nat.le_refl _, h1⟩
    · exact ⟨hb q hq', h2 q hq'⟩
  · intro j hj mi h1 h2
    have hcell : (resample p).cell (monthEnd mi) j = lastObsInMonth (r :: rs) mi j := by
      rw [hres]
      unfold Panel.cell
      show (match ((monthRange (monthOf r.1) (monthOf (lastDate rs r.1))).map
          (fun mi' => ((monthEnd mi' : Date), (List.range p.cols.length).map
            (fun j' => lastObsInMonth (r :: rs) mi' j')))).find?
            (fun row : Row => row.1 == monthEnd mi) with
        | some rr => rr.2.getD j none
        | none => none) = lastObsInMonth (r :: rs) mi j
      rw [find?_monthRows (monthOf r.1) (monthOf (lastDate rs r.1)) mi h1 h2
        (fun mi' => (List.range p.cols.length).map (fun j' => lastObsInMonth (r :: rs) mi' j'))]
      show ((List.range p.cols.length).map
        (fun j' => lastObsInMonth (r :: rs) mi j')).getD j none = lastObsInMonth (r :: rs) mi j
      rw [getD_map_range _ _ j hj]
    rw [hrr]
    constructor
    · intro v
      rw [hcell]
      exact lastObs_some_iff hs mi j v
    · rw [hcell]
      exact lastObs_none_iff mi j

/-- Witness for C1 at the aligned scenario panel. -/
theorem resampler_last_obs_witness :
    (resamplePanel.rows = resampleHead :: resampleTail ∧
      (resamplePanel.rows.map Prod.fst).Pairwise (fun a b => a < b)) ∧
    ((resample resamplePanel).dates
        = (monthRange (monthOf resampleHead.1)
            (monthOf (lastDate resampleTail resampleHead.1))).map monthEnd ∧
    (∀ q, q ∈ resamplePanel.rows →
        resampleHead.1 ≤ q.1 ∧ q.1 ≤ lastDate resampleTail resampleHead.1) ∧
    (∀ j, j < resamplePanel.cols.length → ∀ mi, monthOf resampleHead.1 ≤ mi →
        mi ≤ monthOf (lastDate resampleTail resampleHead.1) →
      (∀ v, (resample resamplePanel).cell (monthEnd mi) j = some v ↔
        ∃ q, q ∈ resamplePanel.rows ∧ monthOf q.1 = mi ∧ q.2.getD j none = some v ∧
          ∀ q', q' ∈ resamplePanel.rows → monthOf q'.1 = mi → q.1 < q'.1 →
            q'.2.getD j none = none) ∧
      ((resample resamplePanel).cell (monthEnd mi) j = none ↔
        ∀ q, q ∈ resamplePanel.rows → monthOf q.1 = mi → q.2.getD j none = none))) :=
  ⟨⟨by decide, by decide⟩,
    resampler_last_obs resamplePanel resampleHead resampleTail (by decide) (by decide)⟩

/-- C10: pipeline determinism/idempotence — the pipeline output (the
rendered CSV lines) is a pure function of the directory listing, so two runs
over equal listings of unchanged input files produce identical output,
byte for byte. -/
theorem pipeline_deterministic (files files' : List SourceFile) (h : files = files') :
    runPipeline files = runPipeline files' := by
  rw [h]

/-- Witness for C10 at the mixed fixture batch. -/
theorem pipeline_deterministic_witness :
    pipeBatch = pipeBatch ∧ runPipeline pipeBatch = runPipeline pipeBatch :=
  ⟨rfl, pipeline_deterministic pipeBatch pipeBatch rfl⟩

end DataClean
